import Mathlib

/-!
# Verification of the taskflow scheduler core

A shallow embedding of the repository's core (`core/task.py`, `core/workflow.py`)
together with proofs of the behavioural properties stated in its specification.

Conventions of the embedding:
* Python strings are `String`, Python sets of names are `List String` kept
  duplicate-free, Python dicts keyed by task name are Lean functions
  `String → _` updated with `Function.update`.
* The asynchronous body of a task is abstracted by an oracle
  `Nat → Except String String` mapping the attempt index to the outcome of
  invoking the body on that attempt: `Except.error e` models the body raising
  an exception whose formatted traceback is `e`, `Except.ok out` models a
  normal return.  The `while True` retry loop of `Task.execute` performs at
  most `max maxRetries 1` body invocations, so it is rendered as structural
  recursion on a fuel argument instantiated with `maxRetries`.
* Real-time sleeping (`asyncio.sleep`) is modelled by recording the requested
  delay (in seconds, as a rational) in a list, in the order the sleeps are
  requested.
-/

set_option maxRecDepth 8000

/-- `TaskStatus` from `core/task.py`. -/
inductive TaskStatus where
  | PENDING
  | RUNNING
  | SUCCEEDED
  | FAILED
  | SKIPPED
deriving DecidableEq, Repr

/-- `TaskResult` from `core/task.py`. The wall-clock fields `started_at` /
`finished_at` are real-time quantities and are omitted; `ok`, `output`,
`error` and `retries` are kept. -/
structure TaskResult where
  ok : Bool
  output : Option String := none
  error : Option String := none
  retries : Nat := 0
deriving DecidableEq, Repr

/-- Everything observable about one call of `Task.execute`: the returned
`TaskResult`, the final value of `self.status`, the list of backoff delays
requested via `asyncio.sleep` (in request order), and the number of times the
task body was invoked. -/
structure ExecOutcome where
  result : TaskResult
  status : TaskStatus
  delays : List ℚ
  attempts : Nat
deriving DecidableEq, Repr

/-- Outcome of the success branch of `Task.execute` (core/task.py lines
57-64): `ok := true`, the output recorded, `retries` left at the count of
failed attempts so far, status SUCCEEDED, exactly this one body invocation
counted. -/
def execSuccess (out : String) (attempt : Nat) : ExecOutcome :=
  { result := { ok := true, output := some out, retries := attempt },
    status := .SUCCEEDED, delays := [], attempts := 1 }

/-- Outcome of the exhausted-retries branch of `Task.execute` (core/task.py
lines 71-80): `ok := false`, the final attempt's formatted error recorded,
`retries` equal to the incremented attempt counter, status FAILED. -/
def execFailure (e : String) (retries : Nat) : ExecOutcome :=
  { result := { ok := false, error := some e, retries := retries },
    status := .FAILED, delays := [], attempts := 1 }

/-- The body of the `while True` loop of `Task.execute` (core/task.py lines
53-85), entered with failure counter `attempt`.  On success the result keeps
`retries = attempt` (the field was last written by the previous failure, if
any); on failure `attempt` is incremented first and the loop exits when
`attempt ≥ max_retries`, else it sleeps `retry_backoff_seconds * attempt` and
repeats.  `fuel` bounds the remaining iterations; `execute` instantiates it
with `maxRetries`, which always suffices: the loop exits no later than when
`attempt` reaches `maxRetries`, so whenever the fuel runs out the exit
condition `attempt + 1 ≥ maxRetries` already holds and the fuel-0 clause
coincides with the loop's own exit branch. -/
def executeLoop (run : Nat → Except String String) (maxRetries : Nat) (backoff : ℚ) :
    Nat → Nat → ExecOutcome
  | 0, attempt =>
    match run attempt with
    | .ok out => execSuccess out attempt
    | .error e => execFailure e (attempt + 1)
  | fuel + 1, attempt =>
    match run attempt with
    | .ok out => execSuccess out attempt
    | .error e =>
      if attempt + 1 ≥ maxRetries then
        execFailure e (attempt + 1)
      else
        let rest := executeLoop run maxRetries backoff fuel (attempt + 1)
        { rest with
            delays := backoff * ((attempt : ℚ) + 1) :: rest.delays,
            attempts := rest.attempts + 1 }

/-- `Task.execute` (core/task.py lines 47-85): run the retry loop starting
from `attempt = 0`. -/
def execute (run : Nat → Except String String) (maxRetries : Nat) (backoff : ℚ) :
    ExecOutcome :=
  executeLoop run maxRetries backoff maxRetries 0

/-! ## The workflow graph (core/workflow.py) -/

/-- A `Workflow` after its `add_task` calls: the declared task names (keys of
`self.tasks`, in insertion order) and the prerequisite map `self.deps`.
`add_task` rejects duplicate names and stores `set(depends_on)`, so a
well-formed workflow has duplicate-free `tasks` and duplicate-free `deps`
lists (`Workflow.WF` below). -/
structure Workflow where
  name : String
  tasks : List String
  deps : String → List String

/-- Well-formedness guaranteed by `add_task`: no duplicate task names, and
each stored dependency set is duplicate-free. -/
def Workflow.WF (w : Workflow) : Prop :=
  w.tasks.Nodup ∧ ∀ t ∈ w.tasks, (w.deps t).Nodup

/-- All `(task, missing prerequisite)` pairs collected by
`Workflow._validate_all_deps_exist` (core/workflow.py lines 28-36), in the
iteration order of the source loops. -/
def missingPairs (w : Workflow) : List (String × String) :=
  w.tasks.flatMap fun t =>
    ((w.deps t).filter (fun p => ¬ p ∈ w.tasks)).map fun p => (t, p)

/-- Referential validity: every declared prerequisite names a declared task. -/
def validRefs (w : Workflow) : Prop := missingPairs w = []

/-- The error message raised by `_validate_all_deps_exist`. -/
def refErrMsg (pairs : List (String × String)) : String :=
  "Unknown dependency reference(s): " ++
    String.intercalate ", " (pairs.map fun tp => tp.1 ++ "→" ++ tp.2)

/-- `Workflow._validate_all_deps_exist`: collect all dangling references and
raise (model: return `Except.error`) if any exist. -/
def validate_all_deps_exist (w : Workflow) : Except String Unit :=
  if missingPairs w = [] then .ok ()
  else .error (refErrMsg (missingPairs w))

/-- Reverse adjacency `children` (built identically in `toposort` and in
`run`): the declared tasks that depend on `p`.  Python iterates a set here;
the model fixes the declaration order of `self.tasks`. -/
def childrenOf (w : Workflow) (p : String) : List String :=
  w.tasks.filter fun t => p ∈ w.deps t

/-! ## Kahn's algorithm (`Workflow.toposort`, core/workflow.py lines 38-75) -/

/-- State of Kahn's algorithm: per-task in-degree (a Python `int`, so an
integer that is decremented without truncation), the output `order`, and the
FIFO `ready` deque (head = next to pop, appends at the tail). -/
structure KahnState where
  in_degree : String → Int
  order : List String
  ready : List String

/-- One step of the inner `for child in children[node]` loop
(core/workflow.py lines 64-67): decrement the child's in-degree and append it
to the ready deque if the in-degree reached zero. -/
def kahnStep (acc : KahnState) (ch : String) : KahnState :=
  let d := acc.in_degree ch - 1
  let acc1 := { acc with in_degree := Function.update acc.in_degree ch d }
  if d = 0 then { acc1 with ready := acc1.ready ++ [ch] } else acc1

/-- One pass of the `while ready:` body (core/workflow.py lines 60-67): pop
the head of the deque, append it to the order, and process its children. -/
def kahnVisit (w : Workflow) (node : String) (s : KahnState) : KahnState :=
  (childrenOf w node).foldl kahnStep
    { s with ready := s.ready.tail, order := s.order ++ [node] }

/-- The `while ready:` loop of `toposort`.  Each iteration pops one node and
appends it to `order`; `order` never repeats a task, so `|tasks| + 1` fuel is
more than the loop can ever consume and the fuel-0 clause is unreachable from
`toposort`'s instantiation. -/
def kahnLoop (w : Workflow) : Nat → KahnState → KahnState
  | 0, s => s
  | fuel + 1, s =>
    match s.ready with
    | [] => s
    | node :: _ => kahnLoop w fuel (kahnVisit w node s)

/-- Initial Kahn state: `in_degree[t] = len(prereqs)` and the ready deque
seeded with all zero-in-degree tasks in declaration order. -/
def kahnInit (w : Workflow) : KahnState :=
  { in_degree := fun t => ((w.deps t).length : Int),
    order := [],
    ready := w.tasks.filter fun t => ((w.deps t).length : Int) = 0 }

/-- The final Kahn state reached by `toposort`. -/
def kahnFinal (w : Workflow) : KahnState :=
  kahnLoop w (w.tasks.length + 1) (kahnInit w)

/-- The "stuck" set computed on cycle detection (core/workflow.py line 72):
every task whose in-degree never reached zero. -/
def kahnStuck (w : Workflow) : List String :=
  w.tasks.filter fun t => (kahnFinal w).in_degree t > 0

/-- The cycle error message (core/workflow.py line 73). -/
def cycleMsg (wfName : String) (stuck : List String) : String :=
  "Cycle detected in workflow '" ++ wfName ++ "'. Nodes involved: " ++ toString stuck

/-- `Workflow.toposort`: validate references, run Kahn's algorithm, and fail
naming the stuck set if the order is incomplete. -/
def toposort (w : Workflow) : Except String (List String) :=
  match validate_all_deps_exist w with
  | .error e => .error e
  | .ok _ =>
    if (kahnFinal w).order.length ≠ w.tasks.length then
      .error (cycleMsg w.name (kahnStuck w))
    else .ok (kahnFinal w).order

/-- `Workflow.validate_acyclic` (core/workflow.py lines 77-82). -/
def validate_acyclic (w : Workflow) : Except String Bool :=
  (toposort w).map fun _ => true

/-- Direct dependency relation: `p` is a declared prerequisite of `t` (and
`t` is a declared task). -/
def depRel (w : Workflow) (p t : String) : Prop :=
  t ∈ w.tasks ∧ p ∈ w.deps t

/-- Acyclicity of the dependency graph, expressed as well-foundedness of the
prerequisite relation (equivalent, for a finite graph, to the absence of a
dependency cycle). -/
def Acyclic (w : Workflow) : Prop := WellFounded (depRel w)

/-- `Y` depends on `X` directly or transitively. -/
inductive DependsOn (w : Workflow) : String → String → Prop where
  | direct {y x : String} : x ∈ w.deps y → DependsOn w y x
  | step {y p x : String} : p ∈ w.deps y → DependsOn w p x → DependsOn w y x

/-! ## The wavefront scheduler (`Workflow.run`, core/workflow.py lines 84-198)

`run` launches every ready task concurrently and reacts to completions.  The
embedding makes the two genuine sources of nondeterminism explicit:

* `exec : String → TaskResult` — the terminal result each task's execution
  engine would produce (`Task.execute` never raises, so the scheduler sees
  exactly one `TaskResult` per launched task);
* `sched : Nat → List String` — the completion schedule: at loop iteration
  `i`, the in-flight tasks listed in `sched i` (in that order) are the ones
  `asyncio.wait(..., FIRST_COMPLETED)` reports as done.  If the schedule
  names no in-flight task, the first launched one completes, so every
  possible interleaving of completions is some choice of `sched`.

Python set iterations (`children[...]`, `list(ready)`) are modelled on
duplicate-free lists in declaration order. -/

/-- The mutable bookkeeping of one `run` invocation, plus the per-task
`status` fields of the `Task` objects and the monotone log `launched` of
every task whose execution engine was started (`asyncio.create_task`). -/
structure RunState where
  remaining_deps : String → List String
  has_failed_parent : String → Bool
  results : String → Option TaskResult
  status : String → TaskStatus
  running : List String
  ready : List String
  launched : List String

/-- The synthetic result stored by the skip path (core/workflow.py line 123). -/
def skipResult (reason : String) : TaskResult :=
  { ok := false, error := some reason }

/-- The default skip reason (core/workflow.py line 120). -/
def skipReason : String := "SKIPPED: prerequisite failed"

/-- The post-loop sweep's skip reason (core/workflow.py line 192). -/
def unrunnableReason : String := "SKIPPED: unrunnable after failure or unresolved deps"

/-- The two writes performed by `mark_skipped` on the task being skipped
(core/workflow.py lines 123-125): store the synthetic result and set status
SKIPPED. -/
def skipAssign (reason : String) (t : String) (s : RunState) : RunState :=
  { s with
      results := Function.update s.results t (some (skipResult reason)),
      status := Function.update s.status t .SKIPPED }

/-- The body of the `for ch in children[task_name]` loop of `mark_skipped`
(core/workflow.py lines 129-136), with the recursive cascade call abstracted
as `recur`: flag the child's failed ancestor, drop the edge, and recursively
skip the child if its remaining deps emptied. -/
def skipStep (recur : String → RunState → RunState) (t : String)
    (acc : RunState) (ch : String) : RunState :=
  let acc1 : RunState :=
    { acc with
        has_failed_parent := Function.update acc.has_failed_parent ch true,
        remaining_deps := Function.update acc.remaining_deps ch
          ((acc.remaining_deps ch).erase t) }
  if acc1.remaining_deps ch = [] then recur ch acc1 else acc1

/-- `mark_skipped` (core/workflow.py lines 120-136): no-op on a task that
already has a result; otherwise store a skip result, set status SKIPPED, and
for every child mark `has_failed_parent`, remove the edge from the child's
remaining deps, and recursively skip the child if that emptied them.  The
recursion consumes one unresolved task per level, so the fuel `run`
supplies (`|tasks|`) always covers the cascade: the fuel-0 clause is
reachable only when the task being skipped was the last unresolved one, in
which case no child can satisfy the recursion guard anyway. -/
def mark_skipped (w : Workflow) (reason : String) : Nat → String → RunState → RunState
  | 0, t, s =>
    if (s.results t).isSome then s
    else skipAssign reason t s
  | fuel + 1, t, s =>
    if (s.results t).isSome then s
    else (childrenOf w t).foldl (skipStep (mark_skipped w reason fuel) t)
      (skipAssign reason t s)

/-- The launch phase (core/workflow.py lines 141-148): for every name in the
snapshot of `ready`, either resolve it through the skip cascade (failed
ancestor), or start its execution engine, and remove it from `ready`. -/
def launchStep (w : Workflow) (skipFuel : Nat) (acc : RunState) (name : String) :
    RunState :=
  let acc1 : RunState :=
    if acc.has_failed_parent name then
      mark_skipped w skipReason skipFuel name acc
    else if (acc.results name).isNone ∧ ¬ name ∈ acc.running then
      { acc with
          running := acc.running.insert name,
          launched := acc.launched.insert name,
          status := Function.update acc.status name .RUNNING }
    else acc
  { acc1 with ready := acc1.ready.erase name }

def launchReady (w : Workflow) (skipFuel : Nat) (s : RunState) : RunState :=
  s.ready.foldl (launchStep w skipFuel) s

/-- The completions reported by one `asyncio.wait` wake-up: the scheduled
in-flight tasks, or (the wait primitive guarantees at least one completion)
the first launched task still in flight. -/
def pickDone (scheduled : List String) (running : List String) : List String :=
  let d := (scheduled.filter fun n => n ∈ running).dedup
  if d = [] then running.take 1 else d

/-- The body of the `for ch in children[name]` loop run after a completion
(core/workflow.py lines 173-186): drop the satisfied edge, propagate failure,
and either cascade-skip or promote to `ready` a child that became unblocked. -/
def completeStep (w : Workflow) (skipFuel : Nat) (res : TaskResult) (name : String)
    (acc : RunState) (ch : String) : RunState :=
  let acc1 : RunState :=
    { acc with
        remaining_deps := Function.update acc.remaining_deps ch
          ((acc.remaining_deps ch).erase name),
        has_failed_parent :=
          if res.ok then acc.has_failed_parent
          else Function.update acc.has_failed_parent ch true }
  if acc1.remaining_deps ch = [] then
    if acc1.has_failed_parent ch then
      mark_skipped w skipReason skipFuel ch acc1
    else if (acc1.results ch).isNone ∧ ¬ ch ∈ acc1.running then
      { acc1 with ready := acc1.ready.insert ch }
    else acc1
  else acc1

/-- Processing of one completed task (core/workflow.py lines 162-186):
remove it from in-flight, store its engine's result, set the status its
engine left it with (SUCCEEDED iff `ok`, cf. `execute_sets_status_iff_ok`),
then update every child: drop the satisfied edge, propagate failure, and
either cascade-skip or promote to `ready` any child that became unblocked. -/
def processCompleted (w : Workflow) (exec : String → TaskResult) (skipFuel : Nat)
    (name : String) (s : RunState) : RunState :=
  let res := exec name
  let s1 : RunState :=
    { s with
        running := s.running.erase name,
        results := Function.update s.results name (some res),
        status := Function.update s.status name (if res.ok then .SUCCEEDED else .FAILED) }
  (childrenOf w name).foldl (completeStep w skipFuel res name) s1

/-- The `while ready or running:` loop (core/workflow.py lines 139-186).
Each full iteration resolves at least one task, so `run`'s fuel of
`|tasks| + 1` always reaches the loop's own exit; smaller fuel yields the
state after exactly `fuel` iterations (used to state invariants of every
intermediate state). -/
def runLoop (w : Workflow) (exec : String → TaskResult) (sched : Nat → List String)
    (skipFuel : Nat) : Nat → Nat → RunState → RunState
  | 0, _, s => s
  | fuel + 1, iter, s =>
    let s1 := launchReady w skipFuel s
    if s1.running = [] then s1
    else
      let done := pickDone (sched iter) s1.running
      runLoop w exec sched skipFuel fuel (iter + 1)
        (done.foldl (fun acc n => processCompleted w exec skipFuel n acc) s1)

/-- The post-loop sweep (core/workflow.py lines 190-192): force a skip
cascade for every declared task still without a result. -/
def finalSweep (w : Workflow) (skipFuel : Nat) (s : RunState) : RunState :=
  w.tasks.foldl
    (fun acc t =>
      if (acc.results t).isSome then acc
      else mark_skipped w unrunnableReason skipFuel t acc)
    s

/-- The state at the top of `run`'s scheduling loop: full prerequisite sets,
no failure flags, no results, `Task` objects in their PENDING state (a fresh
`Workflow` run), and the initial ready set of prerequisite-free tasks. -/
def initState (w : Workflow) : RunState :=
  { remaining_deps := w.deps,
    has_failed_parent := fun _ => false,
    results := fun _ => none,
    status := fun _ => .PENDING,
    running := [],
    ready := w.tasks.filter fun t => w.deps t = [],
    launched := [] }

/-- `Workflow.run`: validate references, then run the wavefront loop and the
post-loop sweep.  (The persistence call `write_run` and all logging are
effect-free with respect to the returned map and are omitted.) -/
def Workflow.run (w : Workflow) (exec : String → TaskResult)
    (sched : Nat → List String) : Except String RunState :=
  match validate_all_deps_exist w with
  | .error e => .error e
  | .ok _ =>
    .ok (finalSweep w w.tasks.length
          (runLoop w exec sched w.tasks.length (w.tasks.length + 1) 0 (initState w)))

/-- The final state of a validated run (defaults to the initial state on the
validation-error path, which `Workflow.run` never reaches when references are
valid). -/
def runFinal (w : Workflow) (exec : String → TaskResult)
    (sched : Nat → List String) : RunState :=
  match w.run exec sched with
  | .ok s => s
  | .error _ => initState w

/-- The number of declared tasks that do not yet have a result. -/
def unresolvedCount (w : Workflow) (s : RunState) : Nat :=
  (w.tasks.filter fun t => (s.results t).isNone).length

/-- The scheduler invariant, true at every boundary between the atomic
sections of `Workflow.run` (every point at which the coordinating coroutine
may suspend, and every boundary of the child-update loops). -/
structure RInv (w : Workflow) (s : RunState) : Prop where
  resultsTasks : ∀ t, (s.results t).isSome → t ∈ w.tasks
  readyTasks : ∀ t ∈ s.ready, t ∈ w.tasks
  launchedTasks : ∀ t ∈ s.launched, t ∈ w.tasks
  readyNodup : s.ready.Nodup
  runningNodup : s.running.Nodup
  runningUnresolved : ∀ t ∈ s.running, s.results t = none
  runningLaunched : ∀ t ∈ s.running, t ∈ s.launched
  launchedState : ∀ t ∈ s.launched, t ∈ s.running ∨ (s.results t).isSome
  readyRemaining : ∀ t ∈ s.ready, s.remaining_deps t = []
  remainingComplete : ∀ t ∈ w.tasks, ∀ p ∈ w.deps t, s.results p = none →
    p ∈ s.remaining_deps t
  flagSound : ∀ t, s.has_failed_parent t = true →
    ∃ p ∈ w.deps t, ∃ r, s.results p = some r ∧ r.ok = false
  launchedDepsOk : ∀ t ∈ s.launched, ∀ p ∈ w.deps t,
    ∃ r, s.results p = some r ∧ r.ok = true
  notLaunchedSkipped : ∀ t, ¬ t ∈ s.launched → ∀ r, s.results t = some r →
    r.ok = false ∧ s.status t = .SKIPPED
  statusMatches : ∀ t r, s.results t = some r →
    (r.ok = true → s.status t = .SUCCEEDED) ∧
    (r.ok = false → s.status t = .FAILED ∨ s.status t = .SKIPPED)
  failedLaunched : ∀ t, s.status t = .FAILED → t ∈ s.launched
  skippedNotLaunched : ∀ t, s.status t = .SKIPPED → ¬ t ∈ s.launched

/-- Failure-flag completeness, relative to a set `E` of temporarily excused
(parent, child) pairs: every unresolved task with a failed resolved
prerequisite has its `has_failed_parent` flag set, except possibly for the
pairs in `E` (used to state the invariant in the middle of the child-update
loops, which set the flags of a failed task's children one at a time). -/
def FlagInv (w : Workflow) (E : String → String → Prop) (s : RunState) : Prop :=
  ∀ t ∈ w.tasks, s.results t = none → ∀ p ∈ w.deps t, ∀ r, s.results p = some r →
    r.ok = false → s.has_failed_parent t = true ∨ E p t

/-- The empty excuse set: full failure-flag completeness. -/
def NoExc : String → String → Prop := fun _ _ => False

/-- What every atomic step of the scheduler preserves: results are written
at most once and never erased, the status of a resolved task is frozen,
failure flags are never cleared, remaining-dependency sets only shrink, and
the launched log only grows. -/
structure StepMono (s s' : RunState) : Prop where
  results_mono : ∀ t r, s.results t = some r → s'.results t = some r
  status_frozen : ∀ t, (s.results t).isSome → s'.status t = s.status t
  flag_mono : ∀ t, s.has_failed_parent t = true → s'.has_failed_parent t = true
  remaining_anti : ∀ t p, p ∈ s'.remaining_deps t → p ∈ s.remaining_deps t
  launched_mono : ∀ t ∈ s.launched, t ∈ s'.launched

/-- Everything `mark_skipped` guarantees: invariants preserved (for any
excuse set), state changes monotone, and the in-flight, ready and launched
sets untouched. -/
structure SkipPost (w : Workflow) (E : String → String → Prop)
    (s s' : RunState) : Prop where
  inv : RInv w s'
  flag : FlagInv w E s'
  mono : StepMono s s'
  run_eq : s'.running = s.running
  ready_eq : s'.ready = s.ready
  launch_eq : s'.launched = s.launched

/-! ## Concrete instances used to witness the theorems below -/

/-- A body that raises on its first two attempts and then returns. -/
def bodyFailTwice : Nat → Except String String :=
  fun i => if i < 2 then .error "boom" else .ok "done"

/-- A body that raises on every attempt. -/
def bodyAlwaysFail : Nat → Except String String := fun _ => .error "boom"

/-- The cyclic two-task workflow of `src/test.py`: A depends on B and B
depends on A. -/
def wCycle : Workflow :=
  { name := "bad", tasks := ["A", "B"],
    deps := fun t => if t = "A" then ["B"] else if t = "B" then ["A"] else [] }

/-- The diamond A → (B, C) → D from the specification's test scenarios. -/
def wDiamond : Workflow :=
  { name := "d", tasks := ["A", "B", "C", "D"],
    deps := fun t =>
      if t = "B" then ["A"]
      else if t = "C" then ["A"]
      else if t = "D" then ["B", "C"] else [] }

/-- An execution oracle for `wDiamond` in which task B fails permanently and
every other task succeeds. -/
def execDiamond : String → TaskResult := fun t =>
  if t = "B" then { ok := false, error := some "boom", retries := 3 }
  else { ok := true, output := some t }

/-- The workflow with a dangling reference from the specification's test
scenario: D depends on the undeclared Z. -/
def wMissing : Workflow :=
  { name := "wf", tasks := ["D"], deps := fun t => if t = "D" then ["Z"] else [] }

/-- The trivial completion schedule (always defer to the first in-flight
task). -/
def schedNil : Nat → List String := fun _ => []

/-! ## Lemmas about the retry engine -/

theorem executeLoop_ok (run : Nat → Except String String) (mr : Nat) (bo : ℚ)
    (fuel a : Nat) (out : String) (h : run a = .ok out) :
    executeLoop run mr bo fuel a = execSuccess out a := by
  cases fuel <;> simp [executeLoop, h]

theorem executeLoop_err_exit (run : Nat → Except String String) (mr : Nat) (bo : ℚ)
    (fuel a : Nat) (e : String) (h : run a = .error e) (hge : a + 1 ≥ mr) :
    executeLoop run mr bo fuel a = execFailure e (a + 1) := by
  cases fuel <;> simp [executeLoop, h, hge]

theorem executeLoop_err_retry (run : Nat → Except String String) (mr : Nat) (bo : ℚ)
    (fuel a : Nat) (e : String) (h : run a = .error e) (hlt : ¬ a + 1 ≥ mr) :
    executeLoop run mr bo (fuel + 1) a =
      { executeLoop run mr bo fuel (a + 1) with
          delays := bo * ((a : ℚ) + 1) :: (executeLoop run mr bo fuel (a + 1)).delays,
          attempts := (executeLoop run mr bo fuel (a + 1)).attempts + 1 } := by
  simp [executeLoop, h, hlt]

/-- Generic shape of any outcome of the retry loop: either some attempt
succeeded and the outcome records its output, or some attempt raised and the
outcome records that attempt's error text with status FAILED. -/
theorem executeLoop_shape (run : Nat → Except String String) (mr : Nat) (bo : ℚ) :
    ∀ fuel a,
      (∃ i out, run i = .ok out ∧
        (executeLoop run mr bo fuel a).result =
          { ok := true, output := some out, retries := i } ∧
        (executeLoop run mr bo fuel a).status = .SUCCEEDED) ∨
      (∃ i e, run i = .error e ∧
        (executeLoop run mr bo fuel a).result.ok = false ∧
        (executeLoop run mr bo fuel a).result.error = some e ∧
        (executeLoop run mr bo fuel a).status = .FAILED) := by
  intro fuel
  induction fuel with
  | zero =>
    intro a
    cases hr : run a with
    | ok out =>
      left
      exact ⟨a, out, hr, by simp [executeLoop_ok run mr bo 0 a out hr, execSuccess]⟩
    | error e =>
      right
      refine ⟨a, e, hr, ?_⟩
      simp [executeLoop, hr, execFailure]
  | succ fuel ih =>
    intro a
    cases hr : run a with
    | ok out =>
      left
      exact ⟨a, out, hr, by simp [executeLoop_ok run mr bo (fuel + 1) a out hr, execSuccess]⟩
    | error e =>
      by_cases hge : a + 1 ≥ mr
      · right
        refine ⟨a, e, hr, ?_⟩
        simp [executeLoop_err_exit run mr bo (fuel + 1) a e hr hge, execFailure]
      · rcases ih (a + 1) with ⟨i, out, hio, hres, hst⟩ | ⟨i, e', hie, hok, herr, hst⟩
        · left
          refine ⟨i, out, hio, ?_⟩
          rw [executeLoop_err_retry run mr bo fuel a e hr hge]
          exact ⟨hres, hst⟩
        · right
          refine ⟨i, e', hie, ?_⟩
          rw [executeLoop_err_retry run mr bo fuel a e hr hge]
          exact ⟨hok, herr, hst⟩

/-- Exact outcome when the body fails on attempts `j, j+1, ..., k-1` and
succeeds on attempt `k < maxRetries`: proved for every suffix of the loop so
that the backoff list can be assembled one retry at a time. -/
theorem executeLoop_succ_after_fails (run : Nat → Except String String) (mr : Nat)
    (bo : ℚ) (k : Nat) (out : String)
    (hf : ∀ i, i < k → ∃ e, run i = .error e) (hs : run k = .ok out) (hk : k < mr) :
    ∀ fuel j, j ≤ k → j + fuel = mr →
      executeLoop run mr bo fuel j =
        { result := { ok := true, output := some out, retries := k },
          status := .SUCCEEDED,
          delays := (List.range' (j + 1) (k - j)).map fun i : ℕ => bo * (i : ℚ),
          attempts := k - j + 1 } := by
  intro fuel
  induction fuel with
  | zero =>
    intro j hj hfuel
    omega
  | succ fuel ih =>
    intro j hj hfuel
    rcases Nat.eq_or_lt_of_le hj with hjk | hjk
    · subst hjk
      rw [executeLoop_ok run mr bo (fuel + 1) j out hs]
      simp [execSuccess]
    · obtain ⟨e, he⟩ := hf j hjk
      have hlt : ¬ j + 1 ≥ mr := by omega
      rw [executeLoop_err_retry run mr bo fuel j e he hlt,
        ih (j + 1) (by omega) (by omega)]
      have hrange : List.range' (j + 1) (k - j) =
          (j + 1) :: List.range' (j + 2) (k - (j + 1)) := by
        have : k - j = (k - (j + 1)) + 1 := by omega
        rw [this, List.range'_succ]
      simp [hrange]
      omega

/-- Exact outcome when the body fails on every attempt `< maxRetries` (with
`maxRetries ≥ 1`): again proved for every suffix of the loop. -/
theorem executeLoop_all_fail (run : Nat → Except String String) (mr : Nat)
    (bo : ℚ) (err : Nat → String)
    (hf : ∀ i, i < mr → run i = .error (err i)) :
    ∀ fuel j, j < mr → j + fuel = mr →
      executeLoop run mr bo fuel j =
        { result := { ok := false, error := some (err (mr - 1)), retries := mr },
          status := .FAILED,
          delays := (List.range' (j + 1) (mr - 1 - j)).map fun i : ℕ => bo * (i : ℚ),
          attempts := mr - j } := by
  intro fuel
  induction fuel with
  | zero =>
    intro j hj hfuel
    omega
  | succ fuel ih =>
    intro j hj hfuel
    have he := hf j hj
    by_cases hge : j + 1 ≥ mr
    · have hj1 : j = mr - 1 := by omega
      rw [executeLoop_err_exit run mr bo (fuel + 1) j (err j) he hge]
      have : mr - 1 - j = 0 := by omega
      simp [execFailure, this, hj1]
      omega
    · rw [executeLoop_err_retry run mr bo fuel j (err j) he hge,
        ih (j + 1) (by omega) (by omega)]
      have hrange : List.range' (j + 1) (mr - 1 - j) =
          (j + 1) :: List.range' (j + 2) (mr - 1 - (j + 1)) := by
        have : mr - 1 - j = (mr - 1 - (j + 1)) + 1 := by omega
        rw [this, List.range'_succ]
      simp [hrange]
      omega

/-- `execute` always leaves the task's status SUCCEEDED exactly when the
returned result has `ok = true` (core/task.py lines 57 and 72: the status and
the result are written together in each exit branch). -/
theorem execute_sets_status_iff_ok (run : Nat → Except String String)
    (mr : Nat) (bo : ℚ) :
    (execute run mr bo).status = .SUCCEEDED ↔ (execute run mr bo).result.ok = true := by
  rcases executeLoop_shape run mr bo mr 0 with ⟨i, out, _, hres, hst⟩ |
    ⟨i, e, _, hok, _, hst⟩
  · simp only [execute] at hst hres ⊢
    rw [hst, hres]
    simp
  · simp only [execute] at hok hst ⊢
    rw [hst, hok]
    simp

/-- The backoff delays `[bo*1, ..., bo*k]` produced by the loop, re-indexed
from 0 as the specification states them. -/
theorem delays_range_shift (bo : ℚ) :
    ∀ k, (List.range' 1 k).map (fun i : ℕ => bo * (i : ℚ)) =
      (List.range k).map fun i : ℕ => bo * ((i : ℚ) + 1) := by
  intro k
  induction k with
  | zero => simp
  | succ k ih =>
    rw [List.range'_concat, List.range_succ, List.map_append, List.map_append, ih]
    congr 1
    simp only [List.map_cons, List.map_nil]
    congr 2
    push_cast
    ring

/-- Cumulative backoff: the delays `[bo*1, ..., bo*k]` sum to
`bo * (0 + 1 + ... + k)`. -/
theorem delays_sum_gauss (bo : ℚ) :
    ∀ k, ((List.range k).map fun i : ℕ => bo * ((i : ℚ) + 1)).sum =
      bo * ((List.range (k + 1)).map fun i : ℕ => (i : ℚ)).sum := by
  intro k
  induction k with
  | zero => simp [List.range_succ]
  | succ k ih =>
    rw [List.range_succ, List.map_append, List.sum_append, ih,
      @List.range_succ (k + 1), List.map_append, List.sum_append]
    simp only [List.map_cons, List.map_nil, List.sum_cons, List.sum_nil]
    push_cast
    ring

/-- C3.  `Task.execute` never raises: for every body behaviour it returns a
`TaskResult`, and whenever that result is a failure the raised exception's
formatted text was captured into the result instead of escaping — no
exception crosses the Execution Engine boundary (in the embedding, `execute`
is a total function into `ExecOutcome`, and the scheduler consumes only the
returned result). -/
theorem execute_never_raises (run : Nat → Except String String) (mr : Nat) (bo : ℚ) :
    ((execute run mr bo).result.ok = true ∧ (execute run mr bo).status = .SUCCEEDED ∧
      ∃ i out, run i = .ok out ∧ (execute run mr bo).result.output = some out) ∨
    ((execute run mr bo).result.ok = false ∧ (execute run mr bo).status = .FAILED ∧
      ∃ i e, run i = .error e ∧ (execute run mr bo).result.error = some e) := by
  rcases executeLoop_shape run mr bo mr 0 with ⟨i, out, hio, hres, hst⟩ |
    ⟨i, e, hie, hok, herr, hst⟩
  · left
    simp only [execute] at *
    rw [hres, hst]
    exact ⟨rfl, rfl, i, out, hio, rfl⟩
  · right
    simp only [execute] at *
    exact ⟨hok, hst, i, e, hie, herr⟩

/-- C4.  A body that fails exactly `k < max_retries` times and then succeeds
yields `ok = true` with `retries = k` (the succeeding attempt is not
counted), the backoff before the retry following the `i`-th failure is
`retry_backoff_seconds * i`, and the cumulative backoff is
`retry_backoff_seconds * (1 + 2 + ... + k)`. -/
theorem execute_retry_success (run : Nat → Except String String) (mr k : Nat)
    (bo : ℚ) (out : String)
    (hf : ∀ i, i < k → ∃ e, run i = .error e)
    (hs : run k = .ok out) (hk : k < mr) :
    (execute run mr bo).result.ok = true ∧
    (execute run mr bo).result.retries = k ∧
    (execute run mr bo).result.output = some out ∧
    (execute run mr bo).status = .SUCCEEDED ∧
    (execute run mr bo).delays = ((List.range k).map fun i : ℕ => bo * ((i : ℚ) + 1)) ∧
    (execute run mr bo).delays.sum =
      bo * ((List.range (k + 1)).map fun i : ℕ => (i : ℚ)).sum ∧
    (execute run mr bo).attempts = k + 1 := by
  have hh : execute run mr bo =
      { result := { ok := true, output := some out, retries := k },
        status := .SUCCEEDED,
        delays := (List.range' 1 k).map fun i : ℕ => bo * (i : ℚ),
        attempts := k + 1 } :=
    executeLoop_succ_after_fails run mr bo k out hf hs hk mr 0 (by omega) (by omega)
  rw [hh]
  refine ⟨rfl, rfl, rfl, rfl, delays_range_shift bo k, ?_, rfl⟩
  show ((List.range' 1 k).map fun i : ℕ => bo * (i : ℚ)).sum = _
  rw [delays_range_shift bo k]
  exact delays_sum_gauss bo k

/-- Witness for C4 at `bodyFailTwice`, `k = 2`, `max_retries = 5`,
`retry_backoff_seconds = 3/2`. -/
theorem execute_retry_success_witness :
    (∀ i, i < 2 → ∃ e, bodyFailTwice i = Except.error e) ∧
    bodyFailTwice 2 = Except.ok "done" ∧ 2 < 5 ∧
    (execute bodyFailTwice 5 (3 / 2)).result.ok = true ∧
    (execute bodyFailTwice 5 (3 / 2)).result.retries = 2 ∧
    (execute bodyFailTwice 5 (3 / 2)).delays.sum =
      (3 / 2 : ℚ) * ((List.range 3).map fun i : ℕ => (i : ℚ)).sum := by
  have hf : ∀ i, i < 2 → ∃ e, bodyFailTwice i = Except.error e := by
    intro i hi
    exact ⟨"boom", by simp [bodyFailTwice, hi]⟩
  have h := execute_retry_success bodyFailTwice 5 2 (3 / 2) "done" hf rfl (by omega)
  exact ⟨hf, rfl, by omega, h.1, h.2.1, h.2.2.2.2.2.1⟩

/-- C5.  A body that fails on all of its `max_retries ≥ 1` attempts yields
`ok = false`, status FAILED, `retries = max_retries`, and the error captured
from the final failing attempt. -/
theorem execute_exhausts_retries (run : Nat → Except String String) (mr : Nat)
    (bo : ℚ) (err : Nat → String) (hmr : 1 ≤ mr)
    (hf : ∀ i, i < mr → run i = .error (err i)) :
    (execute run mr bo).result.ok = false ∧
    (execute run mr bo).status = .FAILED ∧
    (execute run mr bo).result.retries = mr ∧
    (execute run mr bo).result.error = some (err (mr - 1)) := by
  have hh : execute run mr bo =
      { result := { ok := false, error := some (err (mr - 1)), retries := mr },
        status := .FAILED,
        delays := (List.range' 1 (mr - 1)).map fun i : ℕ => bo * (i : ℚ),
        attempts := mr } :=
    executeLoop_all_fail run mr bo err hf mr 0 (by omega) (by omega)
  rw [hh]
  exact ⟨rfl, rfl, rfl, rfl⟩

/-- Witness for C5 at `bodyAlwaysFail` with `max_retries = 2`. -/
theorem execute_exhausts_retries_witness :
    1 ≤ 2 ∧ (∀ i, i < 2 → bodyAlwaysFail i = Except.error "boom") ∧
    (execute bodyAlwaysFail 2 1).result.ok = false ∧
    (execute bodyAlwaysFail 2 1).result.retries = 2 ∧
    (execute bodyAlwaysFail 2 1).result.error = some "boom" := by
  have h := execute_exhausts_retries bodyAlwaysFail 2 1 (fun _ => "boom")
    (by omega) (fun i _ => rfl)
  exact ⟨by omega, fun i _ => rfl, h.1, h.2.2.1, h.2.2.2⟩

/-- C9.  With `max_retries = 0` a failing body gets exactly one attempt: no
retry, no backoff sleep, and `execute` immediately returns a failure result
with status FAILED. -/
theorem execute_zero_retries (run : Nat → Except String String) (bo : ℚ)
    (e : String) (h : run 0 = .error e) :
    (execute run 0 bo).attempts = 1 ∧
    (execute run 0 bo).delays = [] ∧
    (execute run 0 bo).result.ok = false ∧
    (execute run 0 bo).status = .FAILED ∧
    (execute run 0 bo).result.error = some e ∧
    (execute run 0 bo).result.retries = 1 := by
  simp [execute, executeLoop, h, execFailure]

/-- Witness for C9 at `bodyAlwaysFail`. -/
theorem execute_zero_retries_witness :
    bodyAlwaysFail 0 = Except.error "boom" ∧
    (execute bodyAlwaysFail 0 1).attempts = 1 ∧
    (execute bodyAlwaysFail 0 1).delays = [] ∧
    (execute bodyAlwaysFail 0 1).status = .FAILED := by
  have h := execute_zero_retries bodyAlwaysFail 1 "boom" rfl
  exact ⟨rfl, h.1, h.2.1, h.2.2.2.1⟩

/-! ## Generic list helpers -/

theorem nodup_subset_length_le {l₁ l₂ : List String} (h₁ : l₁.Nodup)
    (hsub : ∀ t ∈ l₁, t ∈ l₂) : l₁.length ≤ l₂.length := by
  calc l₁.length = l₁.toFinset.card := (List.toFinset_card_of_nodup h₁).symm
    _ ≤ l₂.toFinset.card := by
        apply Finset.card_le_card
        intro a ha
        rw [List.mem_toFinset] at *
        exact hsub a (by simpa using ha)
    _ ≤ l₂.length := l₂.toFinset_card_le

theorem mem_take_indexOf {p : String} : ∀ (l : List String) (i : Nat),
    p ∈ l.take i → l.indexOf p < i := by
  intro l
  induction l with
  | nil => intro i h; simp at h
  | cons a l ih =>
    intro i h
    cases i with
    | zero => simp at h
    | succ i =>
      rw [List.take_succ_cons, List.mem_cons] at h
      by_cases hpa : p = a
      · subst hpa
        simp [List.indexOf_cons_self]
      · rcases h with h | h
        · exact absurd h hpa
        · rw [List.indexOf_cons_ne _ (by simpa using Ne.symm hpa)]
          exact Nat.succ_lt_succ (ih i h)

/-! ## Kahn invariants -/

/-- The number of prerequisites of `t` not yet placed into `order`; the loop
invariant below states that this is exactly what the algorithm's `in_degree`
tracks. -/
def countDeps (w : Workflow) (order : List String) (t : String) : Nat :=
  ((w.deps t).filter fun p => ¬ p ∈ order).length

/-- `order` lists every task after all of its prerequisites. -/
def ordRespects (w : Workflow) (l : List String) : Prop :=
  ∀ i (h : i < l.length), ∀ p ∈ w.deps (l.get ⟨i, h⟩), p ∈ l.take i

theorem countDeps_nil (w : Workflow) (t : String) :
    countDeps w [] t = (w.deps t).length := by
  simp [countDeps]

theorem countDeps_eq_zero {w : Workflow} {o : List String} {t : String} :
    countDeps w o t = 0 ↔ ∀ p ∈ w.deps t, p ∈ o := by
  rw [countDeps, List.length_eq_zero, List.filter_eq_nil_iff]
  simp

theorem countDeps_pos {w : Workflow} {o : List String} {t : String}
    (h : countDeps w o t ≠ 0) : ∃ p ∈ w.deps t, ¬ p ∈ o := by
  by_contra hc
  push_neg at hc
  exact h (countDeps_eq_zero.2 hc)

theorem filter_length_append_mem {node : String} (l o : List String)
    (hnd : l.Nodup) (hin : node ∈ l) (hno : ¬ node ∈ o) :
    (l.filter fun p => ¬ p ∈ o).length =
      (l.filter fun p => ¬ p ∈ (o ++ [node])).length + 1 := by
  have hiff : ∀ p : String, (¬ p ∈ (o ++ [node])) ↔ ((¬ p = node) ∧ ¬ p ∈ o) := by
    intro p
    simp only [List.mem_append, List.mem_singleton]
    tauto
  have hff : (l.filter fun p => ¬ p ∈ (o ++ [node])) =
      (l.filter fun p => ¬ p ∈ o).filter (fun p => ¬ p = node) := by
    rw [List.filter_filter]
    apply List.filter_congr
    intro p _
    rw [← Bool.decide_and, decide_eq_decide]
    exact hiff p
  have hL : (l.filter fun p => ¬ p ∈ o).Nodup := hnd.filter _
  have hmemL : node ∈ (l.filter fun p => ¬ p ∈ o) :=
    List.mem_filter.2 ⟨hin, by simpa using hno⟩
  have herase : (l.filter fun p => ¬ p ∈ o).erase node =
      (l.filter fun p => ¬ p ∈ o).filter (fun p => ¬ p = node) := by
    rw [hL.erase_eq_filter]
    apply List.filter_congr
    intro p _
    rw [show (p != node) = !decide (p = node) from rfl, decide_not]
  rw [hff, ← herase, List.length_erase_of_mem hmemL]
  have : 1 ≤ (l.filter fun p => ¬ p ∈ o).length :=
    List.length_pos.2 (List.ne_nil_of_mem hmemL)
  omega

theorem filter_length_append_not {node : String} (l : List String) (o : List String)
    (h : ¬ node ∈ l ∨ node ∈ o) :
    (l.filter fun p => ¬ p ∈ (o ++ [node])).length =
      (l.filter fun p => ¬ p ∈ o).length := by
  congr 1
  apply List.filter_congr
  intro p hp
  rw [decide_eq_decide]
  simp only [List.mem_append, List.mem_singleton]
  constructor
  · intro hno hmem
    exact hno (Or.inl hmem)
  · intro hno hmem
    rcases hmem with hmem | rfl
    · exact hno hmem
    · rcases h with h | h
      · exact h hp
      · exact hno h

/-- A fold-invariant principle indexed by the remaining suffix of the list. -/
theorem foldl_inv_suffix {α β : Type} (f : α → β → α) (Q : List β → α → Prop) :
    ∀ (l : List β) (a : α), Q l a →
      (∀ b l' acc, Q (b :: l') acc → Q l' (f acc b)) →
      Q [] (List.foldl f a l) := by
  intro l
  induction l with
  | nil => intro a h _; exact h
  | cons b l ih =>
    intro a h hstep
    exact ih (f a b) (hstep b l a h) hstep

/-- The invariant of Kahn's algorithm, true at every boundary of the
`while ready:` loop. -/
structure KInv (w : Workflow) (s : KahnState) : Prop where
  deg : ∀ t ∈ w.tasks, s.in_degree t = (countDeps w s.order t : ℤ)
  nodup : (s.order ++ s.ready).Nodup
  sub : ∀ t ∈ s.order ++ s.ready, t ∈ w.tasks
  closedOrder : ∀ t ∈ s.order, ∀ p ∈ w.deps t, p ∈ s.order
  closedReady : ∀ t ∈ s.ready, ∀ p ∈ w.deps t, p ∈ s.order
  sorted : ordRespects w s.order
  complete : ∀ t ∈ w.tasks, countDeps w s.order t = 0 → t ∈ s.order ∨ t ∈ s.ready

theorem kahnInit_inv (w : Workflow) (hwf : w.WF) : KInv w (kahnInit w) := by
  constructor
  · intro t _
    simp [kahnInit, countDeps_nil]
  · simpa [kahnInit] using hwf.1.filter _
  · intro t ht
    simp only [kahnInit, List.nil_append, List.mem_filter] at ht
    exact ht.1
  · intro t ht
    simp [kahnInit] at ht
  · intro t ht p hp
    simp only [kahnInit, List.mem_filter] at ht
    have : (w.deps t).length = 0 := by
      have := ht.2
      simp only [decide_eq_true_eq, Int.natCast_eq_zero] at this
      exact_mod_cast this
    rw [List.length_eq_zero] at this
    rw [this] at hp
    simp at hp
  · intro i h
    simp [kahnInit] at h
  · intro t ht h
    rw [show (kahnInit w).order = [] from rfl, countDeps_nil] at h
    right
    simp only [kahnInit, List.mem_filter]
    refine ⟨ht, ?_⟩
    simp [h]

theorem ordRespects_append (w : Workflow) (o : List String) (node : String)
    (hs : ordRespects w o) (hdeps : ∀ p ∈ w.deps node, p ∈ o) :
    ordRespects w (o ++ [node]) := by
  intro i h p hp
  have hlen : (o ++ [node]).length = o.length + 1 := by simp
  by_cases hi : i < o.length
  · have hget : (o ++ [node]).get ⟨i, h⟩ = o.get ⟨i, hi⟩ := by
      simp [List.getElem_append_left hi]
    rw [hget] at hp
    have htake : (o ++ [node]).take i = o.take i :=
      List.take_append_of_le_length (Nat.le_of_lt hi)
    rw [htake]
    exact hs i hi p hp
  · have hieq : i = o.length := by omega
    subst hieq
    have hget : (o ++ [node]).get ⟨o.length, h⟩ = node := by
      simp
    rw [hget] at hp
    have htake : (o ++ [node]).take o.length = o := by
      rw [List.take_append_of_le_length (Nat.le_refl _), List.take_length]
    rw [htake]
    exact hdeps p hp

/-- Preservation of the Kahn invariant by one pass of the `while ready:`
body. -/
theorem kahnVisit_inv (w : Workflow) (hwf : w.WF) (s : KahnState) (node : String)
    (rest : List String) (hready : s.ready = node :: rest) (hinv : KInv w s) :
    KInv w (kahnVisit w node s) ∧
      (kahnVisit w node s).order = s.order ++ [node] := by
  have hnodeReady : node ∈ s.ready := by rw [hready]; simp
  have hnodeTask : node ∈ w.tasks := hinv.sub node (by simp [hnodeReady])
  have hnodup := hinv.nodup
  have hnodeNotOrder : ¬ node ∈ s.order := by
    rw [List.nodup_append] at hnodup
    intro hmem
    exact hnodup.2.2 hmem hnodeReady
  have hdepsNode : ∀ p ∈ w.deps node, p ∈ s.order := hinv.closedReady node hnodeReady
  set o' := s.order ++ [node] with ho'
  have hclosedOrder' : ∀ t ∈ o', ∀ p ∈ w.deps t, p ∈ o' := by
    intro t ht p hp
    rw [ho', List.mem_append] at ht
    rcases ht with ht | ht
    · exact List.mem_append_left _ (hinv.closedOrder t ht p hp)
    · rw [List.mem_singleton] at ht
      subst ht
      exact List.mem_append_left _ (hdepsNode p hp)
  have hsorted' : ordRespects w o' := ordRespects_append w s.order node hinv.sorted hdepsNode
  -- the fold invariant, indexed by the unprocessed suffix of the children
  set Q : List String → KahnState → Prop := fun l acc =>
    acc.order = o' ∧
    (∀ t ∈ acc.ready, countDeps w o' t = 0 ∧ ¬ t ∈ l) ∧
    (∀ t ∈ acc.ready, ∀ p ∈ w.deps t, p ∈ o') ∧
    (∀ t ∈ w.tasks, acc.in_degree t =
      (countDeps w o' t : ℤ) + (if t ∈ l then 1 else 0)) ∧
    (o' ++ acc.ready).Nodup ∧
    (∀ t ∈ o' ++ acc.ready, t ∈ w.tasks) ∧
    (∀ t ∈ w.tasks, countDeps w o' t = 0 → t ∈ o' ∨ t ∈ acc.ready ∨ t ∈ l) ∧
    (∀ ch ∈ l, ch ∈ w.tasks ∧ node ∈ w.deps ch) ∧
    l.Nodup
    with hQ
  have hrearr : o' ++ rest = s.order ++ s.ready := by
    rw [hready, ho', List.append_assoc]
    rfl
  have hentry : Q (childrenOf w node) { s with ready := s.ready.tail, order := o' } := by
    rw [hQ]
    refine ⟨rfl, ?_, ?_, ?_, ?_, ?_, ?_, ?_, ?_⟩
    · intro t ht
      rw [hready] at ht
      simp only [List.tail_cons] at ht
      have hcl := hinv.closedReady t (by rw [hready]; exact List.mem_cons_of_mem _ ht)
      constructor
      · exact countDeps_eq_zero.2 fun p hp => List.mem_append_left _ (hcl p hp)
      · intro hch
        rw [childrenOf, List.mem_filter] at hch
        have : node ∈ s.order := hcl node (by simpa using hch.2)
        exact hnodeNotOrder this
    · intro t ht
      rw [hready] at ht
      simp only [List.tail_cons] at ht
      intro p hp
      exact List.mem_append_left _
        (hinv.closedReady t (by rw [hready]; exact List.mem_cons_of_mem _ ht) p hp)
    · intro t ht
      by_cases hch : t ∈ childrenOf w node
      · rw [childrenOf, List.mem_filter] at hch
        have hdep : node ∈ w.deps t := by simpa using hch.2
        have := filter_length_append_mem (w.deps t) s.order (hwf.2 t ht) hdep hnodeNotOrder
        simp only [if_pos (show t ∈ childrenOf w node from by
          rw [childrenOf, List.mem_filter]; exact ⟨hch.1, by simpa using hdep⟩)]
        rw [hinv.deg t ht]
        simp only [countDeps] at this ⊢
        rw [ho']
        omega
      · simp only [if_neg hch]
        have hnd : ¬ node ∈ w.deps t ∨ node ∈ s.order := by
          left
          intro hdep
          exact hch (by rw [childrenOf, List.mem_filter]; exact ⟨ht, by simpa using hdep⟩)
        have := filter_length_append_not (w.deps t) s.order hnd
        rw [hinv.deg t ht]
        simp only [countDeps] at this ⊢
        rw [ho', this]
        omega
    · rw [hready]
      simp only [List.tail_cons]
      rw [hrearr]
      exact hnodup
    · intro t ht
      rw [hready] at ht
      simp only [List.tail_cons] at ht
      apply hinv.sub
      rw [← hrearr]
      exact ht
    · intro t ht h0
      by_cases h00 : countDeps w s.order t = 0
      · rcases hinv.complete t ht h00 with hmem | hmem
        · exact Or.inl (List.mem_append_left _ hmem)
        · rw [hready, List.mem_cons] at hmem
          rcases hmem with rfl | hmem
          · exact Or.inl (by rw [ho']; simp)
          · exact Or.inr (Or.inl (by rw [hready]; simpa using hmem))
      · obtain ⟨p, hp, hpo⟩ := countDeps_pos h00
        have hpo' : p ∈ o' := countDeps_eq_zero.1 h0 p hp
        rw [ho', List.mem_append, List.mem_singleton] at hpo'
        rcases hpo' with hpo' | rfl
        · exact absurd hpo' hpo
        · exact Or.inr (Or.inr (by
            rw [childrenOf, List.mem_filter]
            exact ⟨ht, by simpa using hp⟩))
    · intro ch hch
      rw [childrenOf, List.mem_filter] at hch
      exact ⟨hch.1, by simpa using hch.2⟩
    · exact hwf.1.filter _
  have hstep : ∀ b l' acc, Q (b :: l') acc → Q l' (kahnStep acc b) := by
    intro b l' acc hq
    rw [hQ] at hq
    obtain ⟨hord, hR1, hR2, hdeg, hnd, hsub, hcomp, hl, hlnd⟩ := hq
    have hbTask : b ∈ w.tasks := (hl b (by simp)).1
    have hbdep : node ∈ w.deps b := (hl b (by simp)).2
    have hbNotl' : ¬ b ∈ l' := by
      rw [List.nodup_cons] at hlnd
      exact hlnd.1
    have hdegb : acc.in_degree b = (countDeps w o' b : ℤ) + 1 := by
      have h := hdeg b hbTask
      rw [if_pos (by simp : b ∈ b :: l')] at h
      exact h
    have hlnd' : l'.Nodup := (List.nodup_cons.1 hlnd).2
    have hbNotO' : ¬ b ∈ o' := by
      rw [ho', List.mem_append, List.mem_singleton]
      rintro (hb | hb)
      · exact hnodeNotOrder (hinv.closedOrder b hb node hbdep)
      · exact hnodeNotOrder (hdepsNode node (hb ▸ hbdep))
    have hbNotReady : ¬ b ∈ acc.ready := fun hmem =>
      (hR1 b hmem).2 (by simp)
    rw [kahnStep, hQ]
    dsimp only
    by_cases hd : acc.in_degree b - 1 = 0
    · have hcd0 : countDeps w o' b = 0 := by
        rw [hdegb] at hd
        omega
      rw [if_pos hd]
      dsimp only
      refine ⟨hord, ?_, ?_, ?_, ?_, ?_, ?_, ?_, hlnd'⟩
      · intro t ht
        rw [List.mem_append, List.mem_singleton] at ht
        rcases ht with ht | rfl
        · exact ⟨(hR1 t ht).1, fun hm => (hR1 t ht).2 (List.mem_cons_of_mem _ hm)⟩
        · exact ⟨hcd0, hbNotl'⟩
      · intro t ht
        rw [List.mem_append, List.mem_singleton] at ht
        rcases ht with ht | rfl
        · exact hR2 t ht
        · exact fun p hp => countDeps_eq_zero.1 hcd0 p hp
      · intro t ht
        by_cases htb : t = b
        · subst htb
          rw [Function.update_same, if_neg hbNotl']
          rw [hdegb] at hd ⊢
          omega
        · rw [Function.update_noteq htb]
          have h := hdeg t ht
          by_cases htl : t ∈ l'
          · rw [if_pos (List.mem_cons_of_mem _ htl)] at h
            rw [if_pos htl]
            exact h
          · rw [if_neg (by simp [htb, htl] : ¬ t ∈ b :: l')] at h
            rw [if_neg htl]
            exact h
      · rw [← List.append_assoc, List.nodup_append]
        refine ⟨hnd, List.nodup_singleton b, ?_⟩
        intro x hx hxb
        rw [List.mem_singleton] at hxb
        subst hxb
        rw [List.mem_append] at hx
        rcases hx with hx | hx
        · exact hbNotO' hx
        · exact hbNotReady hx
      · intro t ht
        rw [← List.append_assoc, List.mem_append, List.mem_singleton] at ht
        rcases ht with ht | rfl
        · exact hsub t ht
        · exact hbTask
      · intro t ht h0
        rcases hcomp t ht h0 with hm | hm | hm
        · exact Or.inl hm
        · exact Or.inr (Or.inl (List.mem_append_left _ hm))
        · rw [List.mem_cons] at hm
          rcases hm with rfl | hm
          · exact Or.inr (Or.inl (List.mem_append_right _ (by simp)))
          · exact Or.inr (Or.inr hm)
      · intro ch hch
        exact hl ch (List.mem_cons_of_mem _ hch)
    · rw [if_neg hd]
      dsimp only
      have hcdne : ¬ countDeps w o' b = 0 := by
        rw [hdegb] at hd
        omega
      refine ⟨hord, ?_, hR2, ?_, hnd, hsub, ?_, ?_, hlnd'⟩
      · intro t ht
        exact ⟨(hR1 t ht).1, fun hm => (hR1 t ht).2 (List.mem_cons_of_mem _ hm)⟩
      · intro t ht
        by_cases htb : t = b
        · subst htb
          rw [Function.update_same, if_neg hbNotl']
          rw [hdegb]
          omega
        · rw [Function.update_noteq htb]
          have h := hdeg t ht
          by_cases htl : t ∈ l'
          · rw [if_pos (List.mem_cons_of_mem _ htl)] at h
            rw [if_pos htl]
            exact h
          · rw [if_neg (by simp [htb, htl] : ¬ t ∈ b :: l')] at h
            rw [if_neg htl]
            exact h
      · intro t ht h0
        rcases hcomp t ht h0 with hm | hm | hm
        · exact Or.inl hm
        · exact Or.inr (Or.inl hm)
        · rw [List.mem_cons] at hm
          rcases hm with rfl | hm
          · exact absurd h0 hcdne
          · exact Or.inr (Or.inr hm)
      · intro ch hch
        exact hl ch (List.mem_cons_of_mem _ hch)
  have hfold := foldl_inv_suffix kahnStep Q (childrenOf w node)
    { s with ready := s.ready.tail, order := o' } hentry hstep
  rw [hQ] at hfold
  obtain ⟨hord, hR1, hR2, hdeg, hnd, hsub, hcomp, _, _⟩ := hfold
  have hvisit : kahnVisit w node s =
      (childrenOf w node).foldl kahnStep
        { s with ready := s.ready.tail, order := o' } := rfl
  rw [← hvisit] at hord hR1 hR2 hdeg hnd hsub hcomp
  refine ⟨⟨?_, ?_, ?_, ?_, ?_, ?_, ?_⟩, hord⟩
  · intro t ht
    have h := hdeg t ht
    rw [if_neg (List.not_mem_nil t)] at h
    rw [hord, h]
    omega
  · rw [hord]
    exact hnd
  · rw [hord]
    exact hsub
  · rw [hord]
    exact hclosedOrder'
  · rw [hord]
    exact hR2
  · rw [hord]
    exact hsorted'
  · rw [hord]
    intro t ht h0
    rcases hcomp t ht h0 with hm | hm | hm
    · exact Or.inl hm
    · exact Or.inr hm
    · exact absurd hm (List.not_mem_nil t)

theorem validRefs_closed {w : Workflow} (hv : validRefs w) :
    ∀ t ∈ w.tasks, ∀ p ∈ w.deps t, p ∈ w.tasks := by
  intro t ht p hp
  by_contra hn
  have hmem : (t, p) ∈ missingPairs w := by
    rw [missingPairs, List.mem_flatMap]
    refine ⟨t, ht, ?_⟩
    rw [List.mem_map]
    exact ⟨p, List.mem_filter.2 ⟨hp, by simpa using hn⟩, rfl⟩
  rw [validRefs] at hv
  rw [hv] at hmem
  simp at hmem

theorem kahnLoop_exits (w : Workflow) (hwf : w.WF) :
    ∀ fuel s, KInv w s → w.tasks.length + 1 ≤ fuel + s.order.length →
      (kahnLoop w fuel s).ready = [] ∧ KInv w (kahnLoop w fuel s) := by
  intro fuel
  induction fuel with
  | zero =>
    intro s hinv hlen
    have hnodup : s.order.Nodup := hinv.nodup.of_append_left
    have hsub : ∀ t ∈ s.order, t ∈ w.tasks := fun t ht =>
      hinv.sub t (List.mem_append_left _ ht)
    have := nodup_subset_length_le hnodup hsub
    omega
  | succ fuel ih =>
    intro s hinv hlen
    cases hready : s.ready with
    | nil =>
      rw [kahnLoop, hready]
      exact ⟨hready, hinv⟩
    | cons node rest =>
      obtain ⟨hinv', hord⟩ := kahnVisit_inv w hwf s node rest hready hinv
      rw [kahnLoop, hready]
      apply ih (kahnVisit w node s) hinv'
      rw [hord]
      simp only [List.length_append, List.length_singleton]
      omega

theorem kahnFinal_spec (w : Workflow) (hwf : w.WF) :
    (kahnFinal w).ready = [] ∧ KInv w (kahnFinal w) := by
  apply kahnLoop_exits w hwf (w.tasks.length + 1) (kahnInit w) (kahnInit_inv w hwf)
  simp [kahnInit]

/-- A task is missing from the final order exactly when its in-degree never
reached zero (i.e. remained positive). -/
theorem kahnFinal_not_mem_iff (w : Workflow) (hwf : w.WF) :
    ∀ t ∈ w.tasks, (countDeps w (kahnFinal w).order t ≠ 0 ↔ ¬ t ∈ (kahnFinal w).order) := by
  obtain ⟨hready, hinv⟩ := kahnFinal_spec w hwf
  intro t ht
  constructor
  · intro hne hmem
    exact hne (countDeps_eq_zero.2 (hinv.closedOrder t hmem))
  · intro hnm h0
    rcases hinv.complete t ht h0 with hmem | hmem
    · exact hnm hmem
    · rw [hready] at hmem
      simp at hmem

theorem kahnStuck_iff (w : Workflow) (hwf : w.WF) :
    ∀ t, t ∈ kahnStuck w ↔ t ∈ w.tasks ∧ ¬ t ∈ (kahnFinal w).order := by
  obtain ⟨hready, hinv⟩ := kahnFinal_spec w hwf
  intro t
  rw [kahnStuck, List.mem_filter]
  constructor
  · rintro ⟨ht, hdeg⟩
    refine ⟨ht, (kahnFinal_not_mem_iff w hwf t ht).1 ?_⟩
    rw [hinv.deg t ht] at hdeg
    simp only [decide_eq_true_eq] at hdeg
    omega
  · rintro ⟨ht, hnm⟩
    refine ⟨ht, ?_⟩
    have := (kahnFinal_not_mem_iff w hwf t ht).2 hnm
    rw [hinv.deg t ht]
    simp only [decide_eq_true_eq]
    omega

theorem kahn_complete_of_acyclic (w : Workflow) (hwf : w.WF) (hv : validRefs w)
    (hacyc : Acyclic w) : ∀ t ∈ w.tasks, t ∈ (kahnFinal w).order := by
  obtain ⟨hready, hinv⟩ := kahnFinal_spec w hwf
  by_contra hc
  push_neg at hc
  obtain ⟨t0, ht0, hnm0⟩ := hc
  have hS : Set.Nonempty {t | t ∈ w.tasks ∧ ¬ t ∈ (kahnFinal w).order} := ⟨t0, ht0, hnm0⟩
  obtain ⟨m, ⟨hmT, hmO⟩, hmin⟩ := hacyc.has_min _ hS
  have hne := (kahnFinal_not_mem_iff w hwf m hmT).2 hmO
  obtain ⟨p, hp, hpo⟩ := countDeps_pos hne
  have hpT : p ∈ w.tasks := validRefs_closed hv m hmT p hp
  exact hmin p ⟨hpT, hpo⟩ ⟨hmT, hp⟩

theorem kahn_order_length_of_acyclic (w : Workflow) (hwf : w.WF) (hv : validRefs w)
    (hacyc : Acyclic w) : (kahnFinal w).order.length = w.tasks.length := by
  obtain ⟨hready, hinv⟩ := kahnFinal_spec w hwf
  apply Nat.le_antisymm
  · exact nodup_subset_length_le hinv.nodup.of_append_left
      (fun t ht => hinv.sub t (List.mem_append_left _ ht))
  · exact nodup_subset_length_le hwf.1 (kahn_complete_of_acyclic w hwf hv hacyc)

theorem kahn_all_mem_of_length (w : Workflow) (hwf : w.WF)
    (hlen : (kahnFinal w).order.length = w.tasks.length) :
    ∀ t ∈ w.tasks, t ∈ (kahnFinal w).order := by
  obtain ⟨hready, hinv⟩ := kahnFinal_spec w hwf
  have hnodup : (kahnFinal w).order.Nodup := hinv.nodup.of_append_left
  have hsub : (kahnFinal w).order.toFinset ⊆ w.tasks.toFinset := by
    intro a ha
    rw [List.mem_toFinset] at *
    exact hinv.sub a (List.mem_append_left _ (by simpa using ha))
  have hcard : w.tasks.toFinset.card ≤ (kahnFinal w).order.toFinset.card := by
    rw [List.toFinset_card_of_nodup hnodup, List.toFinset_card_of_nodup hwf.1, hlen]
  have := Finset.eq_of_subset_of_card_le hsub hcard
  intro t ht
  have : t ∈ (kahnFinal w).order.toFinset := by
    rw [this]
    exact List.mem_toFinset.2 ht
  exact List.mem_toFinset.1 this

theorem acyclic_of_kahn_length (w : Workflow) (hwf : w.WF)
    (hlen : (kahnFinal w).order.length = w.tasks.length) : Acyclic w := by
  obtain ⟨hready, hinv⟩ := kahnFinal_spec w hwf
  set o := (kahnFinal w).order with ho
  apply Subrelation.wf (r := InvImage Nat.lt fun t => o.indexOf t)
  · intro p t hpt
    obtain ⟨htT, hpdep⟩ := hpt
    have htO : t ∈ o := kahn_all_mem_of_length w hwf hlen t htT
    have hidx : o.indexOf t < o.length := List.indexOf_lt_length.2 htO
    have hget : o.get ⟨o.indexOf t, hidx⟩ = t := List.indexOf_get hidx
    have := hinv.sorted (o.indexOf t) hidx p (by rw [hget]; exact hpdep)
    exact mem_take_indexOf o (o.indexOf t) this
  · exact InvImage.wf _ Nat.lt_wfRel.wf

/-- C7.  On a cyclic graph `toposort` (and hence `validate_acyclic`) raises
the cycle error built from the stuck set — exactly the tasks whose in-degree
is still positive when the queue drains, i.e. (third conjunct) exactly the
tasks that never entered the produced order (a task is appended to the order
exactly when its in-degree reaches zero); in particular for the two-task
cycle of `src/test.py` the error names both A and B.  On an acyclic graph
with valid references `toposort` returns an order containing precisely the
declared tasks, each task appearing after all of its prerequisites. -/
theorem toposort_spec (w : Workflow) (hwf : w.WF) (hv : validRefs w) :
    (¬ Acyclic w →
      toposort w = .error (cycleMsg w.name (kahnStuck w)) ∧
      kahnStuck w ≠ [] ∧
      (∀ t, t ∈ kahnStuck w ↔ t ∈ w.tasks ∧ ¬ t ∈ (kahnFinal w).order)) ∧
    (Acyclic w →
      toposort w = .ok (kahnFinal w).order ∧
      (∀ t, t ∈ (kahnFinal w).order ↔ t ∈ w.tasks) ∧
      ordRespects w (kahnFinal w).order) ∧
    toposort wCycle = .error (cycleMsg "bad" ["A", "B"]) ∧
    validate_acyclic wCycle = .error (cycleMsg "bad" ["A", "B"]) := by
  obtain ⟨hready, hinv⟩ := kahnFinal_spec w hwf
  have hv' : missingPairs w = [] := hv
  have hval : validate_all_deps_exist w = .ok () := by
    rw [validate_all_deps_exist, if_pos hv']
  refine ⟨?_, ?_, by rfl, by rfl⟩
  · intro hacyc
    have hlen : (kahnFinal w).order.length ≠ w.tasks.length := by
      intro heq
      exact hacyc (acyclic_of_kahn_length w hwf heq)
    have htopo : toposort w = .error (cycleMsg w.name (kahnStuck w)) := by
      rw [toposort, hval]
      simp only [if_pos hlen]
    refine ⟨htopo, ?_, kahnStuck_iff w hwf⟩
    have hex : ∃ t ∈ w.tasks, ¬ t ∈ (kahnFinal w).order := by
      by_contra hc
      push_neg at hc
      apply hlen
      apply Nat.le_antisymm
      · exact nodup_subset_length_le hinv.nodup.of_append_left
          (fun t ht => hinv.sub t (List.mem_append_left _ ht))
      · exact nodup_subset_length_le hwf.1 hc
    obtain ⟨t, ht, hnm⟩ := hex
    exact List.ne_nil_of_mem ((kahnStuck_iff w hwf t).2 ⟨ht, hnm⟩)
  · intro hacyc
    have hlen := kahn_order_length_of_acyclic w hwf hv hacyc
    refine ⟨?_, ?_, hinv.sorted⟩
    · rw [toposort, hval]
      simp only [if_neg (show ¬ (kahnFinal w).order.length ≠ w.tasks.length from
        not_not.2 hlen)]
    · intro t
      constructor
      · intro ht
        exact hinv.sub t (List.mem_append_left _ ht)
      · exact kahn_complete_of_acyclic w hwf hv hacyc t

/-- Witness for C7 at the acyclic diamond workflow (the concrete cyclic
conjuncts are closed facts inside the theorem). -/
theorem toposort_spec_witness :
    wDiamond.WF ∧ validRefs wDiamond ∧
    toposort wCycle = .error (cycleMsg "bad" ["A", "B"]) ∧
    validate_acyclic wCycle = .error (cycleMsg "bad" ["A", "B"]) := by
  have hwf : wDiamond.WF := by
    unfold Workflow.WF
    decide
  have hv : validRefs wDiamond := by
    unfold validRefs
    decide
  have h := toposort_spec wDiamond hwf hv
  exact ⟨hwf, hv, h.2.2.1, h.2.2.2⟩

/-- C8.  If any declared prerequisite is absent from the task set, reference
validation raises an error enumerating all (task, missing prerequisite)
pairs — the first conjunct characterises the enumerated pairs — and this
check runs before any scheduling decision: `run` returns the validation
error itself (its scheduling loop, the only place where task bodies are
started, is never entered), and the standalone `toposort` /
`validate_acyclic` paths fail with the same error. -/
theorem run_validates_references (w : Workflow) (exec : String → TaskResult)
    (sched : Nat → List String) (h : missingPairs w ≠ []) :
    (∀ t p, (t, p) ∈ missingPairs w ↔ (t ∈ w.tasks ∧ p ∈ w.deps t ∧ ¬ p ∈ w.tasks)) ∧
    w.run exec sched = .error (refErrMsg (missingPairs w)) ∧
    toposort w = .error (refErrMsg (missingPairs w)) ∧
    validate_acyclic w = .error (refErrMsg (missingPairs w)) := by
  have hval : validate_all_deps_exist w = .error (refErrMsg (missingPairs w)) := by
    rw [validate_all_deps_exist, if_neg h]
  have htopo : toposort w = .error (refErrMsg (missingPairs w)) := by
    rw [toposort, hval]
  refine ⟨?_, ?_, htopo, ?_⟩
  · intro t p
    constructor
    · intro hmem
      rw [missingPairs, List.mem_flatMap] at hmem
      obtain ⟨t', ht', hmem⟩ := hmem
      rw [List.mem_map] at hmem
      obtain ⟨p', hp', heq⟩ := hmem
      obtain ⟨rfl, rfl⟩ := Prod.mk.injEq .. ▸ heq
      rw [List.mem_filter] at hp'
      exact ⟨ht', hp'.1, by simpa using hp'.2⟩
    · rintro ⟨ht, hp, hnp⟩
      rw [missingPairs, List.mem_flatMap]
      refine ⟨t, ht, ?_⟩
      rw [List.mem_map]
      exact ⟨p, List.mem_filter.2 ⟨hp, by simpa using hnp⟩, rfl⟩
  · rw [Workflow.run, hval]
  · rw [validate_acyclic, htopo]
    rfl

/-- Witness for C8 at the dangling-reference workflow `wMissing`
(D depends on the undeclared Z). -/
theorem run_validates_references_witness :
    missingPairs wMissing ≠ [] ∧
    missingPairs wMissing = [("D", "Z")] ∧
    wMissing.run execDiamond schedNil = .error (refErrMsg (missingPairs wMissing)) := by
  have h := run_validates_references wMissing execDiamond schedNil (by decide)
  exact ⟨by decide, by decide, h.2.1⟩

/-! ## Monotonicity and counting helpers for the scheduler -/

theorem stepMono_refl (s : RunState) : StepMono s s :=
  ⟨fun _ _ h => h, fun _ _ => Eq.refl _, fun _ h => h, fun _ _ h => h, fun _ h => h⟩

theorem StepMono.comp {s1 s2 s3 : RunState} (h12 : StepMono s1 s2)
    (h23 : StepMono s2 s3) : StepMono s1 s3 := by
  refine ⟨?_, ?_, ?_, ?_, ?_⟩
  · intro t r h
    exact h23.results_mono t r (h12.results_mono t r h)
  · intro t h
    rw [h23.status_frozen t (by
      obtain ⟨r, hr⟩ := Option.isSome_iff_exists.1 h
      rw [h12.results_mono t r hr]
      rfl), h12.status_frozen t h]
  · intro t h
    exact h23.flag_mono t (h12.flag_mono t h)
  · intro t p h
    exact h12.remaining_anti t p (h23.remaining_anti t p h)
  · intro t h
    exact h23.launched_mono t (h12.launched_mono t h)

theorem StepMono.results_none {s s' : RunState} (h : StepMono s s') :
    ∀ t, s'.results t = none → s.results t = none := by
  intro t hn
  cases hr : s.results t with
  | none => rfl
  | some r =>
    rw [h.results_mono t r hr] at hn
    exact absurd hn (by simp)

theorem filter_length_mono_pred (l : List String) (p q : String → Bool)
    (h : ∀ a ∈ l, q a = true → p a = true) :
    (l.filter q).length ≤ (l.filter p).length := by
  induction l with
  | nil => simp
  | cons a l ih =>
    have ih' := ih fun x hx => h x (List.mem_cons_of_mem _ hx)
    rw [List.filter_cons, List.filter_cons]
    by_cases hq : q a = true
    · rw [if_pos hq, if_pos (h a (by simp) hq)]
      simpa using ih'
    · rw [if_neg hq]
      by_cases hp : p a = true
      · rw [if_pos hp]
        exact Nat.le_succ_of_le ih'
      · rw [if_neg hp]
        exact ih'

theorem filter_length_strict (l : List String) (p q : String → Bool)
    (h : ∀ a ∈ l, q a = true → p a = true) (t : String) (ht : t ∈ l)
    (hpt : p t = true) (hqt : q t = false) :
    (l.filter q).length < (l.filter p).length := by
  induction l with
  | nil => simp at ht
  | cons a l ih =>
    have hmono := filter_length_mono_pred l p q fun x hx => h x (List.mem_cons_of_mem _ hx)
    rw [List.filter_cons, List.filter_cons]
    rcases List.mem_cons.1 ht with rfl | ht'
    · rw [if_neg (by simp [hqt]), if_pos hpt]
      simpa using Nat.lt_succ_of_le hmono
    · have ih' := ih (fun x hx => h x (List.mem_cons_of_mem _ hx)) ht'
      by_cases hq : q a = true
      · rw [if_pos hq, if_pos (h a (by simp) hq)]
        simpa using ih'
      · rw [if_neg hq]
        by_cases hp : p a = true
        · rw [if_pos hp]
          exact Nat.lt_succ_of_lt ih'
        · rw [if_neg hp]
          exact ih'

theorem unresolvedCount_mono {w : Workflow} {s s' : RunState} (h : StepMono s s') :
    unresolvedCount w s' ≤ unresolvedCount w s := by
  apply filter_length_mono_pred
  intro a _ hq
  simp only [Option.isNone_iff_eq_none, decide_eq_true_eq] at *
  exact h.results_none a hq

theorem unresolvedCount_strict {w : Workflow} {s s' : RunState} (h : StepMono s s')
    (t : String) (ht : t ∈ w.tasks) (h1 : s.results t = none)
    (h2 : (s'.results t).isSome) : unresolvedCount w s' < unresolvedCount w s := by
  have himp : ∀ a ∈ w.tasks, ((s'.results a).isNone = true) → ((s.results a).isNone = true) := by
    intro a _ hq
    rw [Option.isNone_iff_eq_none] at hq ⊢
    exact h.results_none a hq
  have hpt : (s.results t).isNone = true := by rw [h1]; rfl
  have hqt : (s'.results t).isNone = false := by
    obtain ⟨r, hr⟩ := Option.isSome_iff_exists.1 h2
    rw [hr]
    rfl
  exact filter_length_strict w.tasks _ _ himp t ht hpt hqt

theorem two_mem_filter_length (l : List String) (p : String → Bool)
    (a b : String) (ha : a ∈ l) (hb : b ∈ l) (hab : ¬ a = b)
    (hpa : p a = true) (hpb : p b = true) : 2 ≤ (l.filter p).length := by
  have hfa : a ∈ l.filter p := List.mem_filter.2 ⟨ha, hpa⟩
  have hfb : b ∈ l.filter p := List.mem_filter.2 ⟨hb, hpb⟩
  have hsub : ({a, b} : Finset String) ⊆ (l.filter p).toFinset := by
    intro x hx
    rw [Finset.mem_insert, Finset.mem_singleton] at hx
    rcases hx with rfl | rfl
    · exact List.mem_toFinset.2 hfa
    · exact List.mem_toFinset.2 hfb
  calc 2 = ({a, b} : Finset String).card := by
        rw [Finset.card_insert_of_not_mem (by simpa using hab), Finset.card_singleton]
    _ ≤ (l.filter p).toFinset.card := Finset.card_le_card hsub
    _ ≤ (l.filter p).length := (l.filter p).toFinset_card_le

/-- A task that is safe to skip (failure flag set, or nothing in flight) and
unresolved cannot be in flight: an in-flight task was launched, and launching
required every prerequisite to have resolved `ok`, contradicting the failed
prerequisite that set the flag. -/
theorem skip_target_not_running {w : Workflow} {s : RunState} {t : String}
    (hinv : RInv w s) (hres : s.results t = none)
    (hsafe : s.has_failed_parent t = true ∨ s.running = []) :
    ¬ t ∈ s.running := by
  intro hrun
  rcases hsafe with hflag | hempty
  · obtain ⟨p, hp, r, hresp, hnok⟩ := hinv.flagSound t hflag
    obtain ⟨r', hresp', hok⟩ := hinv.launchedDepsOk t (hinv.runningLaunched t hrun) p hp
    rw [hresp] at hresp'
    cases hresp'
    rw [hok] at hnok
    exact absurd hnok (by simp)
  · rw [hempty] at hrun
    exact absurd hrun (List.not_mem_nil t)

theorem skip_target_not_launched {w : Workflow} {s : RunState} {t : String}
    (hinv : RInv w s) (hres : s.results t = none) (hNotRun : ¬ t ∈ s.running) :
    ¬ t ∈ s.launched := by
  intro hl
  rcases hinv.launchedState t hl with hrun | hsome
  · exact hNotRun hrun
  · rw [hres] at hsome
    exact absurd hsome (by simp)

/-- The two writes of the skip path preserve the scheduler invariant and are
monotone. -/
theorem skipAssign_inv {w : Workflow} {s : RunState} (reason : String) (t : String)
    (hinv : RInv w s) (ht : t ∈ w.tasks) (hres : s.results t = none)
    (hNotRun : ¬ t ∈ s.running) (hNotLaunched : ¬ t ∈ s.launched) :
    RInv w (skipAssign reason t s) ∧ StepMono s (skipAssign reason t s) := by
  have hmono : StepMono s (skipAssign reason t s) := by
    refine ⟨?_, ?_, ?_, ?_, ?_⟩
    · intro u r hr
      have hut : ¬ u = t := fun h => by rw [h, hres] at hr; cases hr
      rw [skipAssign]
      simp only [Function.update_apply, if_neg hut]
      exact hr
    · intro u hu
      have hut : ¬ u = t := fun h => by rw [h, hres] at hu; exact absurd hu (by simp)
      rw [skipAssign]
      simp only [Function.update_apply, if_neg hut]
    · intro u hu
      exact hu
    · intro u p hp
      exact hp
    · intro u hu
      exact hu
  refine ⟨?_, hmono⟩
  constructor
  · intro u hu
    rw [skipAssign] at hu
    simp only [Function.update_apply] at hu
    by_cases hut : u = t
    · rw [hut]; exact ht
    · rw [if_neg hut] at hu
      exact hinv.resultsTasks u hu
  · exact hinv.readyTasks
  · exact hinv.launchedTasks
  · exact hinv.readyNodup
  · exact hinv.runningNodup
  · intro u hu
    have hut : ¬ u = t := fun h => hNotRun (h ▸ hu)
    rw [skipAssign]
    simp only [Function.update_apply, if_neg hut]
    exact hinv.runningUnresolved u hu
  · exact hinv.runningLaunched
  · intro u hu
    rcases hinv.launchedState u hu with h | h
    · exact Or.inl h
    · refine Or.inr ?_
      obtain ⟨r, hr⟩ := Option.isSome_iff_exists.1 h
      rw [hmono.results_mono u r hr]
      rfl
  · exact hinv.readyRemaining
  · intro u hu p hp hpres
    have hpt : ¬ p = t := fun h => by
      rw [skipAssign] at hpres
      simp only [Function.update_apply, if_pos h] at hpres
      cases hpres
    apply hinv.remainingComplete u hu p hp
    rw [skipAssign] at hpres
    simp only [Function.update_apply, if_neg hpt] at hpres
    exact hpres
  · intro u hu
    obtain ⟨p, hp, r, hr, hnok⟩ := hinv.flagSound u hu
    exact ⟨p, hp, r, hmono.results_mono p r hr, hnok⟩
  · intro u hu p hp
    obtain ⟨r, hr, hok⟩ := hinv.launchedDepsOk u hu p hp
    exact ⟨r, hmono.results_mono p r hr, hok⟩
  · intro u hu r hr
    rw [skipAssign] at hr ⊢
    simp only [Function.update_apply] at hr ⊢
    by_cases hut : u = t
    · rw [if_pos hut] at hr ⊢
      cases hr
      exact ⟨rfl, rfl⟩
    · rw [if_neg hut] at hr ⊢
      exact hinv.notLaunchedSkipped u hu r hr
  · intro u r hr
    rw [skipAssign] at hr ⊢
    simp only [Function.update_apply] at hr ⊢
    by_cases hut : u = t
    · rw [if_pos hut] at hr ⊢
      cases hr
      constructor
      · intro h
        simp [skipResult] at h
      · intro _
        exact Or.inr rfl
    · rw [if_neg hut] at hr ⊢
      exact hinv.statusMatches u r hr
  · intro u hu
    rw [skipAssign] at hu
    simp only [Function.update_apply] at hu
    by_cases hut : u = t
    · rw [if_pos hut] at hu
      cases hu
    · rw [if_neg hut] at hu
      exact hinv.failedLaunched u hu
  · intro u hu
    rw [skipAssign] at hu
    simp only [Function.update_apply] at hu
    by_cases hut : u = t
    · rw [hut]
      exact hNotLaunched
    · rw [if_neg hut] at hu
      exact hinv.skippedNotLaunched u hu

/-- The skip cascade preserves all scheduler invariants (with any excuse
set), is monotone, touches neither the in-flight nor the ready nor the
launched sets, and resolves its target. -/
theorem mark_skipped_inv (w : Workflow) (hwf : w.WF) (reason : String) :
    ∀ fuel t s (E : String → String → Prop),
      RInv w s → FlagInv w E s → t ∈ w.tasks →
      (s.has_failed_parent t = true ∨ s.running = []) →
      unresolvedCount w s ≤ fuel + 1 →
      SkipPost w E s (mark_skipped w reason fuel t s) ∧
        ((mark_skipped w reason fuel t s).results t).isSome := by
  intro fuel
  induction fuel with
  | zero =>
    intro t s E hinv hflag ht hsafe hcount
    by_cases hres : (s.results t).isSome
    · rw [mark_skipped, if_pos hres]
      exact ⟨⟨hinv, hflag, stepMono_refl s, rfl, rfl, rfl⟩, hres⟩
    · rw [mark_skipped, if_neg hres]
      rw [Option.not_isSome_iff_eq_none] at hres
      have hNotRun := skip_target_not_running hinv hres hsafe
      have hNotLaunched := skip_target_not_launched hinv hres hNotRun
      obtain ⟨hinv1, hmono1⟩ := skipAssign_inv reason t hinv ht hres hNotRun hNotLaunched
      refine ⟨⟨hinv1, ?_, hmono1, rfl, rfl, rfl⟩, ?_⟩
      · -- with at most one unresolved task left, the cascade's flag duties are vacuous
        intro t' ht' hres' p hp r hr hnok
        exfalso
        have htt' : ¬ t' = t := fun h => by
          rw [h, skipAssign] at hres'
          simp only [Function.update_apply, if_pos (Eq.refl t)] at hres'
          cases hres'
        have hres'' : s.results t' = none := by
          rw [skipAssign] at hres'
          simp only [Function.update_apply, if_neg htt'] at hres'
          exact hres'
        have h2 := two_mem_filter_length w.tasks (fun u => (s.results u).isNone)
          t' t ht' ht htt'
          (by show (s.results t').isNone = true; rw [hres'']; rfl)
          (by show (s.results t).isNone = true; rw [hres]; rfl)
        rw [show (w.tasks.filter fun u => (s.results u).isNone) =
          (w.tasks.filter fun u => (s.results u).isNone) from rfl] at h2
        have : unresolvedCount w s = (w.tasks.filter fun u => (s.results u).isNone).length := rfl
        omega
      · rw [skipAssign]
        simp only [Function.update_apply, if_pos (Eq.refl t)]
        rfl
  | succ fuel ih =>
    intro t s E hinv hflag ht hsafe hcount
    by_cases hres : (s.results t).isSome
    · rw [mark_skipped, if_pos hres]
      exact ⟨⟨hinv, hflag, stepMono_refl s, rfl, rfl, rfl⟩, hres⟩
    · have heq : mark_skipped w reason (fuel + 1) t s =
          (childrenOf w t).foldl (skipStep (mark_skipped w reason fuel) t)
            (skipAssign reason t s) := by
        rw [mark_skipped, if_neg hres]
      rw [Option.not_isSome_iff_eq_none] at hres
      have hNotRun := skip_target_not_running hinv hres hsafe
      have hNotLaunched := skip_target_not_launched hinv hres hNotRun
      obtain ⟨hinv1, hmono1⟩ := skipAssign_inv reason t hinv ht hres hNotRun hNotLaunched
      set s1 := skipAssign reason t s with hs1
      have hcount1 : unresolvedCount w s1 ≤ fuel + 1 := by
        have := unresolvedCount_strict hmono1 t ht hres (by
          rw [hs1, skipAssign]
          simp only [Function.update_apply, if_pos (Eq.refl t)]
          rfl)
        omega
      have hrest : s1.results t = some (skipResult reason) := by
        rw [hs1, skipAssign]
        show Function.update s.results t (some (skipResult reason)) t = _
        rw [Function.update_same]
      set Q : List String → RunState → Prop := fun l acc =>
        RInv w acc ∧
        FlagInv w (fun p t' => E p t' ∨ (p = t ∧ t' ∈ l)) acc ∧
        StepMono s1 acc ∧
        acc.running = s1.running ∧ acc.ready = s1.ready ∧
        acc.launched = s1.launched ∧
        (∃ rr, acc.results t = some rr ∧ rr.ok = false) ∧
        unresolvedCount w acc ≤ fuel + 1 ∧
        (∀ ch ∈ l, ch ∈ w.tasks ∧ t ∈ w.deps ch)
        with hQ
      have hentry : Q (childrenOf w t) s1 := by
        rw [hQ]
        refine ⟨hinv1, ?_, stepMono_refl s1, rfl, rfl, rfl,
          ⟨skipResult reason, hrest, rfl⟩, hcount1, ?_⟩
        · intro t' ht' hres' p hp r hr hnok
          have htt' : ¬ t' = t := fun h => by
            rw [h, hrest] at hres'
            cases hres'
          have hres'' : s.results t' = none := by
            rw [hs1, skipAssign] at hres'
            simp only [Function.update_apply, if_neg htt'] at hres'
            exact hres'
          by_cases hpt : p = t
          · right
            right
            refine ⟨hpt, ?_⟩
            rw [childrenOf, List.mem_filter]
            exact ⟨ht', by rw [← hpt]; simpa using hp⟩
          · have hrp : s.results p = some r := by
              rw [hs1, skipAssign] at hr
              simp only [Function.update_apply, if_neg hpt] at hr
              exact hr
            rcases hflag t' ht' hres'' p hp r hrp hnok with hf | he
            · left
              exact hf
            · right
              left
              exact he
        · intro ch hch
          rw [childrenOf, List.mem_filter] at hch
          exact ⟨hch.1, by simpa using hch.2⟩
      have hstep : ∀ b l' acc, Q (b :: l') acc →
          Q l' (skipStep (mark_skipped w reason fuel) t acc b) := by
        intro b l' acc hq
        rw [hQ] at hq
        obtain ⟨hiacc, hfacc, hmacc, hrun, hrdy, hlch, ⟨rr, hrt, hrrok⟩, hcnt, hl⟩ := hq
        have hbT : b ∈ w.tasks := (hl b (by simp)).1
        have hbdep : t ∈ w.deps b := (hl b (by simp)).2
        rw [skipStep]
        set acc1 : RunState :=
          { acc with
              has_failed_parent := Function.update acc.has_failed_parent b true,
              remaining_deps := Function.update acc.remaining_deps b
                ((acc.remaining_deps b).erase t) } with hacc1
        have hm01 : StepMono acc acc1 := by
          refine ⟨fun _ _ h => h, fun _ _ => Eq.refl _, ?_, ?_, fun _ h => h⟩
          · intro u hu
            rw [hacc1]
            simp only [Function.update_apply]
            by_cases hub : u = b
            · rw [if_pos hub]
            · rw [if_neg hub]
              exact hu
          · intro u p hp
            rw [hacc1] at hp
            simp only [Function.update_apply] at hp
            by_cases hub : u = b
            · rw [if_pos hub] at hp
              rw [hub]
              exact List.mem_of_mem_erase hp
            · rw [if_neg hub] at hp
              exact hp
        have hiacc1 : RInv w acc1 := by
          constructor
          · exact hiacc.resultsTasks
          · exact hiacc.readyTasks
          · exact hiacc.launchedTasks
          · exact hiacc.readyNodup
          · exact hiacc.runningNodup
          · exact hiacc.runningUnresolved
          · exact hiacc.runningLaunched
          · exact hiacc.launchedState
          · intro u hu
            rw [hacc1]
            simp only [Function.update_apply]
            by_cases hub : u = b
            · rw [if_pos hub, hiacc.readyRemaining b (hub ▸ hu)]
              rfl
            · rw [if_neg hub]
              exact hiacc.readyRemaining u hu
          · intro u hu p hp hpres
            have hmem := hiacc.remainingComplete u hu p hp hpres
            rw [hacc1]
            simp only [Function.update_apply]
            by_cases hub : u = b
            · rw [if_pos hub, ← hub]
              apply List.mem_erase_of_ne ?_ |>.2 hmem
              intro hpt
              rw [hpt, hrt] at hpres
              cases hpres
            · rw [if_neg hub]
              exact hmem
          · intro u hu
            rw [hacc1] at hu
            simp only [Function.update_apply] at hu
            by_cases hub : u = b
            · rw [hub]
              exact ⟨t, hbdep, rr, hrt, hrrok⟩
            · rw [if_neg hub] at hu
              exact hiacc.flagSound u hu
          · exact hiacc.launchedDepsOk
          · exact hiacc.notLaunchedSkipped
          · exact hiacc.statusMatches
          · exact hiacc.failedLaunched
          · exact hiacc.skippedNotLaunched
        have hfacc1 : FlagInv w (fun p t' => E p t' ∨ (p = t ∧ t' ∈ l')) acc1 := by
          intro t' ht' hres' p hp r hr hnok
          rcases hfacc t' ht' hres' p hp r hr hnok with hf | he | ⟨hpt, hmem⟩
          · left
            rw [hacc1]
            simp only [Function.update_apply]
            by_cases hub : t' = b
            · rw [if_pos hub]
            · rw [if_neg hub]
              exact hf
          · right
            left
            exact he
          · rcases List.mem_cons.1 hmem with heq | hmem'
            · left
              rw [hacc1]
              show Function.update acc.has_failed_parent b true t' = true
              rw [heq, Function.update_same]
            · right
              right
              exact ⟨hpt, hmem'⟩
        have hcnt1 : unresolvedCount w acc1 ≤ fuel + 1 := hcnt
        by_cases hrem : acc1.remaining_deps b = []
        · rw [if_pos hrem]
          have hflagb : acc1.has_failed_parent b = true := by
            rw [hacc1]
            show Function.update acc.has_failed_parent b true b = true
            rw [Function.update_same]
          obtain ⟨hpost, hresb⟩ := ih b acc1 (fun p t' => E p t' ∨ (p = t ∧ t' ∈ l'))
            hiacc1 hfacc1 hbT (Or.inl hflagb) hcnt1
          rw [hQ]
          refine ⟨hpost.inv, hpost.flag, ?_, ?_, ?_, ?_, ?_, ?_, ?_⟩
          · exact (hmacc.comp hm01).comp hpost.mono
          · rw [hpost.run_eq]
            exact hrun
          · rw [hpost.ready_eq]
            exact hrdy
          · rw [hpost.launch_eq]
            exact hlch
          · exact ⟨rr, hpost.mono.results_mono t rr hrt, hrrok⟩
          · exact le_trans (unresolvedCount_mono hpost.mono) hcnt1
          · intro ch hch
            exact hl ch (List.mem_cons_of_mem _ hch)
        · rw [if_neg hrem]
          rw [hQ]
          refine ⟨hiacc1, hfacc1, hmacc.comp hm01, ?_, ?_, ?_, ?_, hcnt1, ?_⟩
          · exact hrun
          · exact hrdy
          · exact hlch
          · exact ⟨rr, hrt, hrrok⟩
          · intro ch hch
            exact hl ch (List.mem_cons_of_mem _ hch)
      have hfold := foldl_inv_suffix (skipStep (mark_skipped w reason fuel) t) Q
        (childrenOf w t) s1 hentry hstep
      rw [hQ] at hfold
      obtain ⟨hiout, hfout, hmout, hrun, hrdy, hlch, ⟨rr, hrt, _⟩, _, _⟩ := hfold
      rw [heq]
      refine ⟨⟨hiout, ?_, hmono1.comp hmout, ?_, ?_, ?_⟩, ?_⟩
      · intro t' ht' hres' p hp r hr hnok
        rcases hfout t' ht' hres' p hp r hr hnok with hf | he | ⟨_, hmem⟩
        · exact Or.inl hf
        · exact Or.inr he
        · exact absurd hmem (List.not_mem_nil t')
      · rw [hrun]
        rfl
      · rw [hrdy]
        rfl
      · rw [hlch]
        rfl
      · rw [hrt]
        rfl

theorem unresolvedCount_le (w : Workflow) (s : RunState) :
    unresolvedCount w s ≤ w.tasks.length :=
  List.length_filter_le _ _

theorem RInv_erase_ready {w : Workflow} {s : RunState} (hinv : RInv w s)
    (name : String) : RInv w { s with ready := s.ready.erase name } := by
  constructor
  · exact hinv.resultsTasks
  · intro u hu
    exact hinv.readyTasks u (List.mem_of_mem_erase hu)
  · exact hinv.launchedTasks
  · exact hinv.readyNodup.erase name
  · exact hinv.runningNodup
  · exact hinv.runningUnresolved
  · exact hinv.runningLaunched
  · exact hinv.launchedState
  · intro u hu
    exact hinv.readyRemaining u (List.mem_of_mem_erase hu)
  · exact hinv.remainingComplete
  · exact hinv.flagSound
  · exact hinv.launchedDepsOk
  · exact hinv.notLaunchedSkipped
  · exact hinv.statusMatches
  · exact hinv.failedLaunched
  · exact hinv.skippedNotLaunched

theorem stepMono_set_ready {s s' : RunState} (h : StepMono s s') (rd : List String) :
    StepMono s { s' with ready := rd } := by
  refine ⟨?_, ?_, ?_, ?_, ?_⟩
  · exact h.results_mono
  · exact h.status_frozen
  · exact h.flag_mono
  · exact h.remaining_anti
  · exact h.launched_mono

theorem flagInv_set_ready {w : Workflow} {E : String → String → Prop} {s : RunState}
    (h : FlagInv w E s) (rd : List String) : FlagInv w E { s with ready := rd } := h

/-- The launch phase preserves the invariants, empties `ready`, only grows
`running`, and launches only tasks from the ready snapshot. -/
theorem launchReady_inv (w : Workflow) (hwf : w.WF) (s : RunState)
    (hinv : RInv w s) (hflag : FlagInv w NoExc s) :
    RInv w (launchReady w w.tasks.length s) ∧
    FlagInv w NoExc (launchReady w w.tasks.length s) ∧
    StepMono s (launchReady w w.tasks.length s) ∧
    (launchReady w w.tasks.length s).ready = [] ∧
    (∀ u ∈ s.running, u ∈ (launchReady w w.tasks.length s).running) := by
  set Q : List String → RunState → Prop := fun l acc =>
    RInv w acc ∧ FlagInv w NoExc acc ∧ StepMono s acc ∧ acc.ready = l ∧
    (∀ u ∈ s.running, u ∈ acc.running)
    with hQ
  have hentry : Q s.ready s := by
    rw [hQ]
    exact ⟨hinv, hflag, stepMono_refl s, rfl, fun u hu => hu⟩
  have hstep : ∀ b l' acc, Q (b :: l') acc →
      Q l' (launchStep w w.tasks.length acc b) := by
    intro b l' acc hq
    rw [hQ] at hq
    obtain ⟨hiacc, hfacc, hmacc, hrdy, hrng⟩ := hq
    have hbReady : b ∈ acc.ready := by rw [hrdy]; simp
    have hbT : b ∈ w.tasks := hiacc.readyTasks b hbReady
    rw [launchStep, hQ]
    by_cases hfp : acc.has_failed_parent b
    · rw [if_pos hfp]
      dsimp only
      obtain ⟨hpost, hresb⟩ := mark_skipped_inv w hwf skipReason w.tasks.length b acc
        NoExc hiacc hfacc hbT (Or.inl hfp)
        (le_trans (unresolvedCount_le w acc) (by omega))
      refine ⟨RInv_erase_ready hpost.inv b, hpost.flag,
        stepMono_set_ready (hmacc.comp hpost.mono) _, ?_, ?_⟩
      · show (mark_skipped w skipReason w.tasks.length b acc).ready.erase b = l'
        rw [hpost.ready_eq, hrdy]
        exact List.erase_cons_head b l'
      · intro u hu
        show u ∈ (mark_skipped w skipReason w.tasks.length b acc).running
        rw [hpost.run_eq]
        exact hrng u hu
    · rw [if_neg hfp]
      have hfpfalse : acc.has_failed_parent b = false := by
        cases h : acc.has_failed_parent b
        · rfl
        · exact absurd h hfp
      by_cases hlaunch : (acc.results b).isNone ∧ ¬ b ∈ acc.running
      · rw [if_pos hlaunch]
        dsimp only
        obtain ⟨hresb0, hnotrun⟩ := hlaunch
        have hresb : acc.results b = none := Option.isNone_iff_eq_none.1 hresb0
        have hdepsOk : ∀ p ∈ w.deps b, ∃ r, acc.results p = some r ∧ r.ok = true := by
          intro p hp
          have hrem := hiacc.readyRemaining b hbReady
          cases hrp : acc.results p with
          | none =>
            have := hiacc.remainingComplete b hbT p hp hrp
            rw [hrem] at this
            exact absurd this (List.not_mem_nil p)
          | some r =>
            refine ⟨r, rfl, ?_⟩
            cases hok : r.ok
            · rcases hfacc b hbT hresb p hp r hrp hok with hf | he
              · rw [hf] at hfpfalse
                cases hfpfalse
              · cases he
            · rfl
        set acc1 : RunState :=
          { acc with
              running := acc.running.insert b,
              launched := acc.launched.insert b,
              status := Function.update acc.status b .RUNNING } with hacc1
        have hm1 : StepMono acc acc1 := by
          refine ⟨fun _ _ h => h, ?_, fun _ h => h, fun _ _ h => h, ?_⟩
          · intro u hu
            have hub : ¬ u = b := fun h => by
              rw [h, hresb] at hu
              exact absurd hu (by simp)
            show Function.update acc.status b .RUNNING u = acc.status u
            rw [Function.update_noteq hub]
          · intro u hu
            show u ∈ acc.launched.insert b
            exact List.mem_insert_of_mem hu
        have hi1 : RInv w acc1 := by
          constructor
          · exact hiacc.resultsTasks
          · exact hiacc.readyTasks
          · intro u hu
            rcases List.mem_insert_iff.1 hu with rfl | hu
            · exact hbT
            · exact hiacc.launchedTasks u hu
          · exact hiacc.readyNodup
          · exact hiacc.runningNodup.insert
          · intro u hu
            rcases List.mem_insert_iff.1 hu with rfl | hu
            · exact hresb
            · exact hiacc.runningUnresolved u hu
          · intro u hu
            rcases List.mem_insert_iff.1 hu with rfl | hu
            · exact List.mem_insert_self u acc.launched
            · exact List.mem_insert_of_mem (hiacc.runningLaunched u hu)
          · intro u hu
            rcases List.mem_insert_iff.1 hu with rfl | hu
            · exact Or.inl (List.mem_insert_self u acc.running)
            · rcases hiacc.launchedState u hu with h | h
              · exact Or.inl (List.mem_insert_of_mem h)
              · exact Or.inr h
          · exact hiacc.readyRemaining
          · exact hiacc.remainingComplete
          · exact hiacc.flagSound
          · intro u hu p hp
            rcases List.mem_insert_iff.1 hu with rfl | hu
            · exact hdepsOk p hp
            · exact hiacc.launchedDepsOk u hu p hp
          · intro u hu r hr
            have hub : ¬ u = b := fun h => by
              rw [h, hresb] at hr
              cases hr
            have hu' : ¬ u ∈ acc.launched := fun h =>
              hu (List.mem_insert_of_mem h)
            have hprev := hiacc.notLaunchedSkipped u hu' r hr
            refine ⟨hprev.1, ?_⟩
            show Function.update acc.status b .RUNNING u = .SKIPPED
            rw [Function.update_noteq hub]
            exact hprev.2
          · intro u r hr
            have hub : ¬ u = b := fun h => by
              rw [h, hresb] at hr
              cases hr
            have hsm := hiacc.statusMatches u r hr
            constructor
            · intro hok
              show Function.update acc.status b .RUNNING u = .SUCCEEDED
              rw [Function.update_noteq hub]
              exact hsm.1 hok
            · intro hnok
              show Function.update acc.status b .RUNNING u = .FAILED ∨
                Function.update acc.status b .RUNNING u = .SKIPPED
              rw [Function.update_noteq hub]
              exact hsm.2 hnok
          · intro u hu
            by_cases hub : u = b
            · rw [show acc1.status u = Function.update acc.status b .RUNNING u
                from rfl, hub, Function.update_same] at hu
              cases hu
            · rw [show acc1.status u = Function.update acc.status b .RUNNING u
                from rfl, Function.update_noteq hub] at hu
              show u ∈ acc.launched.insert b
              exact List.mem_insert_of_mem (hiacc.failedLaunched u hu)
          · intro u hu
            by_cases hub : u = b
            · rw [show acc1.status u = Function.update acc.status b .RUNNING u
                from rfl, hub, Function.update_same] at hu
              cases hu
            · rw [show acc1.status u = Function.update acc.status b .RUNNING u
                from rfl, Function.update_noteq hub] at hu
              intro hmem
              rcases List.mem_insert_iff.1 hmem with h | h
              · exact hub h
              · exact hiacc.skippedNotLaunched u hu h
        refine ⟨RInv_erase_ready hi1 b, hfacc,
          stepMono_set_ready (hmacc.comp hm1) _, ?_, ?_⟩
        · show acc1.ready.erase b = l'
          rw [hacc1]
          show acc.ready.erase b = l'
          rw [hrdy]
          exact List.erase_cons_head b l'
        · intro u hu
          show u ∈ acc1.running
          rw [hacc1]
          show u ∈ acc.running.insert b
          exact List.mem_insert_of_mem (hrng u hu)
      · rw [if_neg hlaunch]
        dsimp only
        refine ⟨RInv_erase_ready hiacc b, hfacc,
          stepMono_set_ready hmacc _, ?_, ?_⟩
        · show acc.ready.erase b = l'
          rw [hrdy]
          exact List.erase_cons_head b l'
        · intro u hu
          show u ∈ acc.running
          exact hrng u hu
  have hfold := foldl_inv_suffix (launchStep w w.tasks.length) Q s.ready s hentry hstep
  rw [hQ] at hfold
  obtain ⟨hi, hf, hm, hr, hg⟩ := hfold
  exact ⟨hi, hf, hm, hr, hg⟩

/-- Processing one completion preserves the invariants, removes exactly the
completed task from the in-flight set, resolves it with its engine's result,
and does not launch anything. -/
theorem processCompleted_inv (w : Workflow) (hwf : w.WF)
    (exec : String → TaskResult) (name : String) (s : RunState)
    (hinv : RInv w s) (hflag : FlagInv w NoExc s) (hrun : name ∈ s.running) :
    RInv w (processCompleted w exec w.tasks.length name s) ∧
    FlagInv w NoExc (processCompleted w exec w.tasks.length name s) ∧
    StepMono s (processCompleted w exec w.tasks.length name s) ∧
    (processCompleted w exec w.tasks.length name s).running = s.running.erase name ∧
    (processCompleted w exec w.tasks.length name s).launched = s.launched ∧
    ((processCompleted w exec w.tasks.length name s).results name).isSome := by
  have hnT : name ∈ w.tasks :=
    hinv.launchedTasks name (hinv.runningLaunched name hrun)
  have hnL : name ∈ s.launched := hinv.runningLaunched name hrun
  have hres : s.results name = none := hinv.runningUnresolved name hrun
  set res := exec name with hresdef
  set s1 : RunState :=
    { s with
        running := s.running.erase name,
        results := Function.update s.results name (some res),
        status := Function.update s.status name
          (if res.ok then .SUCCEEDED else .FAILED) } with hs1
  have hm1 : StepMono s s1 := by
    refine ⟨?_, ?_, fun _ h => h, fun _ _ h => h, fun _ h => h⟩
    · intro u r hr
      have hun : ¬ u = name := fun h => by
        rw [h, hres] at hr
        cases hr
      show Function.update s.results name (some res) u = some r
      rw [Function.update_noteq hun]
      exact hr
    · intro u hu
      have hun : ¬ u = name := fun h => by
        rw [h, hres] at hu
        exact absurd hu (by simp)
      show Function.update s.status name _ u = s.status u
      rw [Function.update_noteq hun]
  have hres1 : s1.results name = some res := by
    show Function.update s.results name (some res) name = some res
    rw [Function.update_same]
  have hi1 : RInv w s1 := by
    constructor
    · intro u hu
      by_cases hun : u = name
      · rw [hun]
        exact hnT
      · apply hinv.resultsTasks u
        rw [show s1.results u = Function.update s.results name (some res) u from rfl,
          Function.update_noteq hun] at hu
        exact hu
    · exact hinv.readyTasks
    · exact hinv.launchedTasks
    · exact hinv.readyNodup
    · exact hinv.runningNodup.erase name
    · intro u hu
      have hu' := List.mem_of_mem_erase hu
      have hun : ¬ u = name := (List.Nodup.mem_erase_iff hinv.runningNodup).1 hu |>.1
      show Function.update s.results name (some res) u = none
      rw [Function.update_noteq hun]
      exact hinv.runningUnresolved u hu'
    · intro u hu
      exact hinv.runningLaunched u (List.mem_of_mem_erase hu)
    · intro u hu
      by_cases hun : u = name
      · right
        rw [hun, hres1]
        rfl
      · rcases hinv.launchedState u hu with h | h
        · left
          exact (List.Nodup.mem_erase_iff hinv.runningNodup).2 ⟨hun, h⟩
        · right
          obtain ⟨r, hr⟩ := Option.isSome_iff_exists.1 h
          rw [hm1.results_mono u r hr]
          rfl
    · exact hinv.readyRemaining
    · intro u hu p hp hpres
      apply hinv.remainingComplete u hu p hp
      have hpn : ¬ p = name := fun h => by
        rw [h, hres1] at hpres
        cases hpres
      rw [show s1.results p = Function.update s.results name (some res) p from rfl,
        Function.update_noteq hpn] at hpres
      exact hpres
    · intro u hu
      obtain ⟨p, hp, r, hr, hnok⟩ := hinv.flagSound u hu
      exact ⟨p, hp, r, hm1.results_mono p r hr, hnok⟩
    · intro u hu p hp
      obtain ⟨r, hr, hok⟩ := hinv.launchedDepsOk u hu p hp
      exact ⟨r, hm1.results_mono p r hr, hok⟩
    · intro u hu r hr
      have hun : ¬ u = name := fun h => hu (h ▸ hnL)
      rw [show s1.results u = Function.update s.results name (some res) u from rfl,
        Function.update_noteq hun] at hr
      have hprev := hinv.notLaunchedSkipped u hu r hr
      refine ⟨hprev.1, ?_⟩
      show Function.update s.status name _ u = .SKIPPED
      rw [Function.update_noteq hun]
      exact hprev.2
    · intro u r hr
      by_cases hun : u = name
      · subst hun
        rw [hres1] at hr
        have hr' : res = r := by injection hr
        subst hr'
        constructor
        · intro hok
          show Function.update s.status u
            (if res.ok then TaskStatus.SUCCEEDED else TaskStatus.FAILED) u = .SUCCEEDED
          rw [Function.update_same, if_pos hok]
        · intro hnok
          left
          show Function.update s.status u
            (if res.ok then TaskStatus.SUCCEEDED else TaskStatus.FAILED) u = .FAILED
          rw [Function.update_same, if_neg (by rw [hnok]; exact Bool.false_ne_true)]
      · rw [show s1.results u = Function.update s.results name (some res) u from rfl,
          Function.update_noteq hun] at hr
        have hsm := hinv.statusMatches u r hr
        constructor
        · intro hok
          show Function.update s.status name _ u = .SUCCEEDED
          rw [Function.update_noteq hun]
          exact hsm.1 hok
        · intro hnok
          show Function.update s.status name _ u = .FAILED ∨
            Function.update s.status name _ u = .SKIPPED
          rw [Function.update_noteq hun]
          exact hsm.2 hnok
    · intro u hu
      by_cases hun : u = name
      · rw [hun]
        exact hnL
      · rw [show s1.status u = Function.update s.status name _ u from rfl,
          Function.update_noteq hun] at hu
        exact hinv.failedLaunched u hu
    · intro u hu
      by_cases hun : u = name
      · rw [show s1.status u = Function.update s.status name _ u from rfl,
          hun, Function.update_same] at hu
        by_cases hok : res.ok
        · rw [if_pos hok] at hu
          cases hu
        · rw [if_neg hok] at hu
          cases hu
      · rw [show s1.status u = Function.update s.status name _ u from rfl,
          Function.update_noteq hun] at hu
        exact hinv.skippedNotLaunched u hu
  have heq : processCompleted w exec w.tasks.length name s =
      (childrenOf w name).foldl (completeStep w w.tasks.length res name) s1 := rfl
  set Q : List String → RunState → Prop := fun l acc =>
    RInv w acc ∧
    FlagInv w (fun p t' => res.ok = false ∧ p = name ∧ t' ∈ l) acc ∧
    StepMono s1 acc ∧ acc.running = s1.running ∧ acc.launched = s1.launched ∧
    (∀ ch ∈ l, ch ∈ w.tasks ∧ name ∈ w.deps ch)
    with hQ
  have hentry : Q (childrenOf w name) s1 := by
    rw [hQ]
    refine ⟨hi1, ?_, stepMono_refl s1, rfl, rfl, ?_⟩
    · intro t' ht' hres' p hp r hr hnok
      by_cases hpn : p = name
      · right
        refine ⟨?_, hpn, ?_⟩
        · rw [hpn, hres1] at hr
          cases hr
          exact hnok
        · rw [childrenOf, List.mem_filter]
          refine ⟨ht', ?_⟩
          rw [← hpn]
          simpa using hp
      · have htn : ¬ t' = name := fun h => by
          rw [h, hres1] at hres'
          cases hres'
        have hrp : s.results p = some r := by
          rw [show s1.results p = Function.update s.results name (some res) p from rfl,
            Function.update_noteq hpn] at hr
          exact hr
        have hrt : s.results t' = none := by
          rw [show s1.results t' = Function.update s.results name (some res) t' from rfl,
            Function.update_noteq htn] at hres'
          exact hres'
        rcases hflag t' ht' hrt p hp r hrp hnok with hf | he
        · exact Or.inl hf
        · cases he
    · intro ch hch
      rw [childrenOf, List.mem_filter] at hch
      exact ⟨hch.1, by simpa using hch.2⟩
  have hstep : ∀ b l' acc, Q (b :: l') acc →
      Q l' (completeStep w w.tasks.length res name acc b) := by
    intro b l' acc hq
    rw [hQ] at hq
    obtain ⟨hiacc, hfacc, hmacc, hrunacc, hlchacc, hl⟩ := hq
    have hbT : b ∈ w.tasks := (hl b (by simp)).1
    have hbdep : name ∈ w.deps b := (hl b (by simp)).2
    have hresname : acc.results name = some res := hmacc.results_mono name res hres1
    rw [completeStep, hQ]
    dsimp only
    set acc1 : RunState :=
      { acc with
          remaining_deps := Function.update acc.remaining_deps b
            ((acc.remaining_deps b).erase name),
          has_failed_parent :=
            if res.ok then acc.has_failed_parent
            else Function.update acc.has_failed_parent b true } with hacc1
    have hm01 : StepMono acc acc1 := by
      refine ⟨fun _ _ h => h, fun _ _ => Eq.refl _, ?_, ?_, fun _ h => h⟩
      · intro u hu
        show (if res.ok then acc.has_failed_parent
          else Function.update acc.has_failed_parent b true) u = true
        by_cases hok : res.ok
        · rw [if_pos hok]
          exact hu
        · rw [if_neg hok]
          by_cases hub : u = b
          · rw [hub, Function.update_same]
          · rw [Function.update_noteq hub]
            exact hu
      · intro u p hp
        by_cases hub : u = b
        · rw [show acc1.remaining_deps u =
            Function.update acc.remaining_deps b ((acc.remaining_deps b).erase name) u
            from rfl, hub, Function.update_same] at hp
          rw [hub]
          exact List.mem_of_mem_erase hp
        · rw [show acc1.remaining_deps u =
            Function.update acc.remaining_deps b ((acc.remaining_deps b).erase name) u
            from rfl, Function.update_noteq hub] at hp
          exact hp
    have hi01 : RInv w acc1 := by
      constructor
      · exact hiacc.resultsTasks
      · exact hiacc.readyTasks
      · exact hiacc.launchedTasks
      · exact hiacc.readyNodup
      · exact hiacc.runningNodup
      · exact hiacc.runningUnresolved
      · exact hiacc.runningLaunched
      · exact hiacc.launchedState
      · intro u hu
        by_cases hub : u = b
        · show Function.update acc.remaining_deps b
            ((acc.remaining_deps b).erase name) u = []
          rw [hub, Function.update_same, hiacc.readyRemaining b (hub ▸ hu)]
          rfl
        · show Function.update acc.remaining_deps b
            ((acc.remaining_deps b).erase name) u = []
          rw [Function.update_noteq hub]
          exact hiacc.readyRemaining u hu
      · intro u hu p hp hpres
        have hmem := hiacc.remainingComplete u hu p hp hpres
        have hpn : ¬ p = name := fun h => by
          rw [h, hresname] at hpres
          cases hpres
        by_cases hub : u = b
        · show p ∈ Function.update acc.remaining_deps b
            ((acc.remaining_deps b).erase name) u
          rw [hub, Function.update_same]
          rw [hub] at hmem
          exact (List.mem_erase_of_ne hpn).2 hmem
        · show p ∈ Function.update acc.remaining_deps b
            ((acc.remaining_deps b).erase name) u
          rw [Function.update_noteq hub]
          exact hmem
      · intro u hu
        by_cases hok : res.ok
        · rw [show acc1.has_failed_parent u = (if res.ok then acc.has_failed_parent
            else Function.update acc.has_failed_parent b true) u from rfl,
            if_pos hok] at hu
          obtain ⟨p, hp, r, hr, hnok⟩ := hiacc.flagSound u hu
          exact ⟨p, hp, r, hr, hnok⟩
        · rw [show acc1.has_failed_parent u = (if res.ok then acc.has_failed_parent
            else Function.update acc.has_failed_parent b true) u from rfl,
            if_neg hok] at hu
          by_cases hub : u = b
          · rw [hub]
            refine ⟨name, hbdep, res, hresname, ?_⟩
            cases h : res.ok
            · rfl
            · exact absurd h hok
          · rw [Function.update_noteq hub] at hu
            exact hiacc.flagSound u hu
      · exact hiacc.launchedDepsOk
      · exact hiacc.notLaunchedSkipped
      · exact hiacc.statusMatches
      · exact hiacc.failedLaunched
      · exact hiacc.skippedNotLaunched
    have hf01 : FlagInv w (fun p t' => res.ok = false ∧ p = name ∧ t' ∈ l') acc1 := by
      intro t' ht' hres' p hp r hr hnok
      rcases hfacc t' ht' hres' p hp r hr hnok with hf | ⟨hnokres, hpn, hmem⟩
      · exact Or.inl (hm01.flag_mono t' hf)
      · rcases List.mem_cons.1 hmem with heq | hmem'
        · left
          show (if res.ok then acc.has_failed_parent
            else Function.update acc.has_failed_parent b true) t' = true
          rw [if_neg (by rw [hnokres]; exact Bool.false_ne_true), heq,
            Function.update_same]
        · exact Or.inr ⟨hnokres, hpn, hmem'⟩
    by_cases hrem : acc1.remaining_deps b = []
    · rw [if_pos hrem]
      by_cases hfp : acc1.has_failed_parent b
      · rw [if_pos hfp]
        obtain ⟨hpost, hresb⟩ := mark_skipped_inv w hwf skipReason w.tasks.length b acc1
          (fun p t' => res.ok = false ∧ p = name ∧ t' ∈ l') hi01 hf01 hbT (Or.inl hfp)
          (le_trans (unresolvedCount_le w acc1) (by omega))
        refine ⟨hpost.inv, hpost.flag, (hmacc.comp hm01).comp hpost.mono, ?_, ?_, ?_⟩
        · rw [hpost.run_eq]
          exact hrunacc
        · rw [hpost.launch_eq]
          exact hlchacc
        · intro ch hch
          exact hl ch (List.mem_cons_of_mem _ hch)
      · rw [if_neg hfp]
        by_cases hready : (acc1.results b).isNone ∧ ¬ b ∈ acc1.running
        · rw [if_pos hready]
          refine ⟨?_, hf01, stepMono_set_ready (hmacc.comp hm01) _, hrunacc, hlchacc, ?_⟩
          · constructor
            · exact hi01.resultsTasks
            · intro u hu
              rcases List.mem_insert_iff.1 hu with rfl | hu
              · exact hbT
              · exact hi01.readyTasks u hu
            · exact hi01.launchedTasks
            · exact hi01.readyNodup.insert
            · exact hi01.runningNodup
            · exact hi01.runningUnresolved
            · exact hi01.runningLaunched
            · exact hi01.launchedState
            · intro u hu
              rcases List.mem_insert_iff.1 hu with rfl | hu
              · exact hrem
              · exact hi01.readyRemaining u hu
            · exact hi01.remainingComplete
            · exact hi01.flagSound
            · exact hi01.launchedDepsOk
            · exact hi01.notLaunchedSkipped
            · exact hi01.statusMatches
            · exact hi01.failedLaunched
            · exact hi01.skippedNotLaunched
          · intro ch hch
            exact hl ch (List.mem_cons_of_mem _ hch)
        · rw [if_neg hready]
          refine ⟨hi01, hf01, hmacc.comp hm01, hrunacc, hlchacc, ?_⟩
          intro ch hch
          exact hl ch (List.mem_cons_of_mem _ hch)
    · rw [if_neg hrem]
      refine ⟨hi01, hf01, hmacc.comp hm01, hrunacc, hlchacc, ?_⟩
      intro ch hch
      exact hl ch (List.mem_cons_of_mem _ hch)
  have hfold := foldl_inv_suffix (completeStep w w.tasks.length res name) Q
    (childrenOf w name) s1 hentry hstep
  rw [hQ] at hfold
  obtain ⟨hiout, hfout, hmout, hrunout, hlchout, _⟩ := hfold
  rw [heq] at *
  refine ⟨hiout, ?_, hm1.comp hmout, hrunout, hlchout, ?_⟩
  · intro t' ht' hres' p hp r hr hnok
    rcases hfout t' ht' hres' p hp r hr hnok with hf | ⟨_, _, hmem⟩
    · exact Or.inl hf
    · exact absurd hmem (List.not_mem_nil t')
  · rw [hmout.results_mono name res hres1]
    rfl

theorem pickDone_spec (scheduled running : List String) :
    (∀ u ∈ pickDone scheduled running, u ∈ running) ∧
    (pickDone scheduled running).Nodup ∧
    (¬ running = [] → ¬ pickDone scheduled running = []) := by
  rw [pickDone]
  by_cases hd : (scheduled.filter fun n => n ∈ running).dedup = []
  · rw [if_pos hd]
    cases running with
    | nil =>
      exact ⟨fun u hu => by simp at hu, by simp, fun h => absurd rfl h⟩
    | cons a l =>
      refine ⟨?_, ?_, ?_⟩
      · intro u hu
        rw [List.take_succ_cons, List.take_zero] at hu
        rw [List.mem_singleton] at hu
        rw [hu]
        simp
      · rw [List.take_succ_cons, List.take_zero]
        exact List.nodup_singleton a
      · intro _ h
        rw [List.take_succ_cons, List.take_zero] at h
        cases h
  · rw [if_neg hd]
    refine ⟨?_, List.nodup_dedup _, fun _ => hd⟩
    intro u hu
    rw [List.mem_dedup, List.mem_filter] at hu
    simpa using hu.2

theorem doneFold_inv (w : Workflow) (hwf : w.WF) (exec : String → TaskResult) :
    ∀ (l : List String) (s : RunState), RInv w s → FlagInv w NoExc s →
      (∀ u ∈ l, u ∈ s.running) → l.Nodup →
      RInv w (l.foldl (fun acc n => processCompleted w exec w.tasks.length n acc) s) ∧
      FlagInv w NoExc
        (l.foldl (fun acc n => processCompleted w exec w.tasks.length n acc) s) ∧
      StepMono s (l.foldl (fun acc n => processCompleted w exec w.tasks.length n acc) s) ∧
      (∀ u ∈ l,
        ((l.foldl (fun acc n => processCompleted w exec w.tasks.length n acc) s).results
          u).isSome) := by
  intro l
  induction l with
  | nil =>
    intro s hinv hflag _ _
    exact ⟨hinv, hflag, stepMono_refl s, fun u hu => absurd hu (List.not_mem_nil u)⟩
  | cons n rest ih =>
    intro s hinv hflag hmem hnodup
    have hnrun : n ∈ s.running := hmem n (by simp)
    obtain ⟨hi1, hf1, hm1, hrun1, _, hres1⟩ :=
      processCompleted_inv w hwf exec n s hinv hflag hnrun
    rw [List.foldl_cons]
    have hmem' : ∀ u ∈ rest, u ∈ (processCompleted w exec w.tasks.length n s).running := by
      intro u hu
      rw [hrun1]
      refine (List.Nodup.mem_erase_iff hinv.runningNodup).2 ⟨?_, hmem u (List.mem_cons_of_mem _ hu)⟩
      intro h
      rw [List.nodup_cons] at hnodup
      exact hnodup.1 (h ▸ hu)
    obtain ⟨hi2, hf2, hm2, hres2⟩ := ih (processCompleted w exec w.tasks.length n s)
      hi1 hf1 hmem' (List.nodup_cons.1 hnodup).2
    refine ⟨hi2, hf2, hm1.comp hm2, ?_⟩
    intro u hu
    rcases List.mem_cons.1 hu with rfl | hu
    · obtain ⟨r, hr⟩ := Option.isSome_iff_exists.1 hres1
      rw [hm2.results_mono u r hr]
      rfl
    · exact hres2 u hu

theorem runLoop_inv (w : Workflow) (hwf : w.WF) (exec : String → TaskResult)
    (sched : Nat → List String) :
    ∀ fuel iter s, RInv w s → FlagInv w NoExc s →
      RInv w (runLoop w exec sched w.tasks.length fuel iter s) ∧
      FlagInv w NoExc (runLoop w exec sched w.tasks.length fuel iter s) ∧
      StepMono s (runLoop w exec sched w.tasks.length fuel iter s) := by
  intro fuel
  induction fuel with
  | zero =>
    intro iter s hinv hflag
    exact ⟨hinv, hflag, stepMono_refl s⟩
  | succ fuel ih =>
    intro iter s hinv hflag
    obtain ⟨hi1, hf1, hm1, hrdy1, _⟩ := launchReady_inv w hwf s hinv hflag
    rw [runLoop]
    by_cases hempty : (launchReady w w.tasks.length s).running = []
    · rw [if_pos hempty]
      exact ⟨hi1, hf1, hm1⟩
    · rw [if_neg hempty]
      obtain ⟨hdmem, hdnodup, _⟩ :=
        pickDone_spec (sched iter) (launchReady w w.tasks.length s).running
      obtain ⟨hi2, hf2, hm2, _⟩ := doneFold_inv w hwf exec
        (pickDone (sched iter) (launchReady w w.tasks.length s).running)
        (launchReady w w.tasks.length s) hi1 hf1 hdmem hdnodup
      obtain ⟨hi3, hf3, hm3⟩ := ih (iter + 1) _ hi2 hf2
      exact ⟨hi3, hf3, (hm1.comp hm2).comp hm3⟩

theorem runLoop_exits (w : Workflow) (hwf : w.WF) (exec : String → TaskResult)
    (sched : Nat → List String) :
    ∀ fuel iter s, RInv w s → FlagInv w NoExc s → unresolvedCount w s < fuel →
      (runLoop w exec sched w.tasks.length fuel iter s).running = [] ∧
      (runLoop w exec sched w.tasks.length fuel iter s).ready = [] ∧
      RInv w (runLoop w exec sched w.tasks.length fuel iter s) ∧
      FlagInv w NoExc (runLoop w exec sched w.tasks.length fuel iter s) ∧
      StepMono s (runLoop w exec sched w.tasks.length fuel iter s) := by
  intro fuel
  induction fuel with
  | zero =>
    intro iter s _ _ hcount
    omega
  | succ fuel ih =>
    intro iter s hinv hflag hcount
    obtain ⟨hi1, hf1, hm1, hrdy1, _⟩ := launchReady_inv w hwf s hinv hflag
    rw [runLoop]
    by_cases hempty : (launchReady w w.tasks.length s).running = []
    · rw [if_pos hempty]
      exact ⟨hempty, hrdy1, hi1, hf1, hm1⟩
    · rw [if_neg hempty]
      obtain ⟨hdmem, hdnodup, hdne⟩ :=
        pickDone_spec (sched iter) (launchReady w w.tasks.length s).running
      obtain ⟨hi2, hf2, hm2, hres2⟩ := doneFold_inv w hwf exec
        (pickDone (sched iter) (launchReady w w.tasks.length s).running)
        (launchReady w w.tasks.length s) hi1 hf1 hdmem hdnodup
      have hdne' := hdne hempty
      obtain ⟨n0, rest, hcons⟩ := List.exists_cons_of_ne_nil hdne'
      have hn0run : n0 ∈ (launchReady w w.tasks.length s).running := by
        apply hdmem
        rw [hcons]
        simp
      have hn0T : n0 ∈ w.tasks :=
        hi1.launchedTasks n0 (hi1.runningLaunched n0 hn0run)
      have hn0none : (launchReady w w.tasks.length s).results n0 = none :=
        hi1.runningUnresolved n0 hn0run
      have hn0some := hres2 n0 (by rw [hcons]; simp)
      have hstrict := unresolvedCount_strict (w := w) hm2 n0 hn0T hn0none hn0some
      have hmono1 := unresolvedCount_mono (w := w) hm1
      obtain ⟨h1, h2, h3, h4, h5⟩ := ih (iter + 1) _ hi2 hf2 (by omega)
      exact ⟨h1, h2, h3, h4, (hm1.comp hm2).comp h5⟩

theorem initState_inv (w : Workflow) (hwf : w.WF) :
    RInv w (initState w) ∧ FlagInv w NoExc (initState w) := by
  constructor
  · constructor
    · intro t ht
      exact absurd ht (by simp [initState])
    · intro t ht
      rw [initState] at ht
      exact (List.mem_filter.1 ht).1
    · intro t ht
      exact absurd ht (List.not_mem_nil t)
    · exact hwf.1.filter _
    · exact List.nodup_nil
    · intro t ht
      exact absurd ht (List.not_mem_nil t)
    · intro t ht
      exact absurd ht (List.not_mem_nil t)
    · intro t ht
      exact absurd ht (List.not_mem_nil t)
    · intro t ht
      rw [initState] at ht
      have := (List.mem_filter.1 ht).2
      simpa using this
    · intro t _ p hp _
      exact hp
    · intro t ht
      cases ht
    · intro t ht
      exact absurd ht (List.not_mem_nil t)
    · intro t _ r hr
      cases hr
    · intro t r hr
      cases hr
    · intro t ht
      cases ht
    · intro t ht
      cases ht
  · intro t _ _ p _ r hr
    cases hr

/-- The post-loop sweep preserves the invariants and resolves every declared
task, while leaving the (empty) in-flight set and the ready list alone. -/
theorem finalSweep_inv (w : Workflow) (hwf : w.WF) (s : RunState)
    (hinv : RInv w s) (hflag : FlagInv w NoExc s) (hempty : s.running = []) :
    RInv w (finalSweep w w.tasks.length s) ∧
    StepMono s (finalSweep w w.tasks.length s) ∧
    (∀ t ∈ w.tasks, ((finalSweep w w.tasks.length s).results t).isSome) ∧
    (finalSweep w w.tasks.length s).running = s.running ∧
    (finalSweep w w.tasks.length s).ready = s.ready ∧
    (finalSweep w w.tasks.length s).launched = s.launched := by
  set Q : List String → RunState → Prop := fun l acc =>
    RInv w acc ∧ FlagInv w NoExc acc ∧ StepMono s acc ∧
    acc.running = s.running ∧ acc.ready = s.ready ∧ acc.launched = s.launched ∧
    (∀ t ∈ w.tasks, ¬ t ∈ l → (acc.results t).isSome) ∧
    (∀ ch ∈ l, ch ∈ w.tasks)
    with hQ
  have hentry : Q w.tasks s := by
    rw [hQ]
    exact ⟨hinv, hflag, stepMono_refl s, rfl, rfl, rfl,
      fun t ht hnt => absurd ht hnt, fun ch hch => hch⟩
  have hstep : ∀ b l' acc, Q (b :: l') acc →
      Q l' (if (acc.results b).isSome then acc
        else mark_skipped w unrunnableReason w.tasks.length b acc) := by
    intro b l' acc hq
    rw [hQ] at hq
    obtain ⟨hiacc, hfacc, hmacc, hrun, hrdy, hlch, hres, hlT⟩ := hq
    have hbT : b ∈ w.tasks := hlT b (by simp)
    by_cases hb : (acc.results b).isSome
    · rw [if_pos hb]
      rw [hQ]
      refine ⟨hiacc, hfacc, hmacc, hrun, hrdy, hlch, ?_,
        fun ch hch => hlT ch (List.mem_cons_of_mem _ hch)⟩
      intro t ht hnt
      by_cases htb : t = b
      · rw [htb]
        exact hb
      · exact hres t ht (fun h => hnt (by
          rcases List.mem_cons.1 h with h | h
          · exact absurd h htb
          · exact h))
    · rw [if_neg hb]
      obtain ⟨hpost, hresb⟩ := mark_skipped_inv w hwf unrunnableReason
        w.tasks.length b acc NoExc hiacc hfacc hbT
        (Or.inr (by rw [hrun]; exact hempty))
        (le_trans (unresolvedCount_le w acc) (by omega))
      rw [hQ]
      refine ⟨hpost.inv, hpost.flag, hmacc.comp hpost.mono, ?_, ?_, ?_, ?_,
        fun ch hch => hlT ch (List.mem_cons_of_mem _ hch)⟩
      · rw [hpost.run_eq]
        exact hrun
      · rw [hpost.ready_eq]
        exact hrdy
      · rw [hpost.launch_eq]
        exact hlch
      · intro t ht hnt
        by_cases htb : t = b
        · rw [htb]
          exact hresb
        · have := hres t ht (fun h => hnt (by
            rcases List.mem_cons.1 h with h | h
            · exact absurd h htb
            · exact h))
          obtain ⟨r, hr⟩ := Option.isSome_iff_exists.1 this
          rw [hpost.mono.results_mono t r hr]
          rfl
  have hfold := foldl_inv_suffix
    (fun acc t => if (acc.results t).isSome then acc
      else mark_skipped w unrunnableReason w.tasks.length t acc) Q w.tasks s hentry hstep
  rw [hQ] at hfold
  obtain ⟨hi, _, hm, hrun, hrdy, hlch, hres, _⟩ := hfold
  exact ⟨hi, hm, fun t ht => hres t ht (List.not_mem_nil t), hrun, hrdy, hlch⟩

/-- The assembled facts about a validated run's final state. -/
theorem runFinal_spec (w : Workflow) (hwf : w.WF) (hv : validRefs w)
    (exec : String → TaskResult) (sched : Nat → List String) :
    w.run exec sched = .ok (runFinal w exec sched) ∧
    RInv w (runFinal w exec sched) ∧
    (∀ t ∈ w.tasks, ((runFinal w exec sched).results t).isSome) ∧
    (runFinal w exec sched).running = [] ∧
    (runFinal w exec sched).ready = [] := by
  have hv' : missingPairs w = [] := hv
  have hval : validate_all_deps_exist w = .ok () := by
    rw [validate_all_deps_exist, if_pos hv']
  have hrun_eq : w.run exec sched = .ok (finalSweep w w.tasks.length
      (runLoop w exec sched w.tasks.length (w.tasks.length + 1) 0 (initState w))) := by
    rw [Workflow.run, hval]
  have hF : runFinal w exec sched = finalSweep w w.tasks.length
      (runLoop w exec sched w.tasks.length (w.tasks.length + 1) 0 (initState w)) := by
    rw [runFinal, hrun_eq]
  obtain ⟨hi0, hf0⟩ := initState_inv w hwf
  obtain ⟨hrun0, hrdy0, hiL, hfL, hmL⟩ := runLoop_exits w hwf exec sched
    (w.tasks.length + 1) 0 (initState w) hi0 hf0
    (Nat.lt_succ_of_le (unresolvedCount_le w (initState w)))
  obtain ⟨hiS, hmS, htotal, hrunS, hrdyS, hlchS⟩ := finalSweep_inv w hwf _ hiL hfL hrun0
  rw [hF]
  exact ⟨hrun_eq, hiS, htotal, by rw [hrunS, hrun0], by rw [hrdyS, hrdy0]⟩

/-- C1.  For every validated dependency graph — acyclic or not, since `run`
itself never checks acyclicity and the post-loop sweep covers the leftovers —
and every completion schedule, `run` terminates normally (the wavefront loop
exits with nothing ready or in flight: every iteration resolves at least one
task, so `|tasks| + 1` iterations always suffice), and the returned map holds
exactly one `TaskResult` per declared task (its keys are exactly the task
names) with every task's final status in {SUCCEEDED, FAILED, SKIPPED}. -/
theorem run_total_one_result_per_task (w : Workflow) (hwf : w.WF)
    (hv : validRefs w) (exec : String → TaskResult) (sched : Nat → List String) :
    w.run exec sched = .ok (runFinal w exec sched) ∧
    (∀ t, ((runFinal w exec sched).results t).isSome ↔ t ∈ w.tasks) ∧
    (∀ t ∈ w.tasks,
      (runFinal w exec sched).status t = .SUCCEEDED ∨
      (runFinal w exec sched).status t = .FAILED ∨
      (runFinal w exec sched).status t = .SKIPPED) ∧
    (runFinal w exec sched).running = [] ∧
    (runFinal w exec sched).ready = [] := by
  obtain ⟨hok, hinv, htotal, hrun, hrdy⟩ := runFinal_spec w hwf hv exec sched
  refine ⟨hok, ?_, ?_, hrun, hrdy⟩
  · intro t
    exact ⟨hinv.resultsTasks t, htotal t⟩
  · intro t ht
    obtain ⟨r, hr⟩ := Option.isSome_iff_exists.1 (htotal t ht)
    have hsm := hinv.statusMatches t r hr
    cases hok : r.ok
    · rcases hsm.2 hok with h | h
      · exact Or.inr (Or.inl h)
      · exact Or.inr (Or.inr h)
    · exact Or.inl (hsm.1 hok)

/-- Witness for C1 at the diamond workflow with a failing middle task. -/
theorem run_total_one_result_per_task_witness :
    wDiamond.WF ∧ validRefs wDiamond ∧
    (((runFinal wDiamond execDiamond schedNil).results "D").isSome ↔
      "D" ∈ wDiamond.tasks) ∧
    (runFinal wDiamond execDiamond schedNil).running = [] := by
  have hwf : wDiamond.WF := by
    unfold Workflow.WF
    decide
  have hv : validRefs wDiamond := by
    unfold validRefs
    decide
  have h := run_total_one_result_per_task wDiamond hwf hv execDiamond schedNil
  exact ⟨hwf, hv, h.2.1 "D", h.2.2.2.1⟩

/-- C10.  Status/result coherence after a run: every declared task has
exactly one result; `ok = true` implies status SUCCEEDED; `ok = false`
implies status FAILED (only possible for a task whose execution engine was
actually started: FAILED means the engine exhausted its retries, cf.
`execute_exhausts_retries`) or status SKIPPED (only possible for a task
whose body was never invoked); and no task is left PENDING or RUNNING.
The engine itself keeps the same coherence: `execute` returns SUCCEEDED
exactly when its result has `ok = true`. -/
theorem run_status_result_coherence (w : Workflow) (hwf : w.WF)
    (hv : validRefs w) (exec : String → TaskResult) (sched : Nat → List String) :
    (∀ t ∈ w.tasks, ∃ r, (runFinal w exec sched).results t = some r ∧
      (r.ok = true → (runFinal w exec sched).status t = .SUCCEEDED) ∧
      (r.ok = false → (runFinal w exec sched).status t = .FAILED ∨
        (runFinal w exec sched).status t = .SKIPPED) ∧
      ¬ (runFinal w exec sched).status t = .PENDING ∧
      ¬ (runFinal w exec sched).status t = .RUNNING ∧
      ((runFinal w exec sched).status t = .FAILED →
        t ∈ (runFinal w exec sched).launched) ∧
      ((runFinal w exec sched).status t = .SKIPPED →
        ¬ t ∈ (runFinal w exec sched).launched)) ∧
    (∀ run mr bo, (execute run mr bo).status = .SUCCEEDED ↔
      (execute run mr bo).result.ok = true) := by
  obtain ⟨hok, hinv, htotal, _, _⟩ := runFinal_spec w hwf hv exec sched
  refine ⟨?_, fun run mr bo => execute_sets_status_iff_ok run mr bo⟩
  intro t ht
  obtain ⟨r, hr⟩ := Option.isSome_iff_exists.1 (htotal t ht)
  have hsm := hinv.statusMatches t r hr
  have hnp : ¬ (runFinal w exec sched).status t = .PENDING := by
    intro hp
    cases hok : r.ok
    · rcases hsm.2 hok with h | h <;> rw [hp] at h <;> cases h
    · have := hsm.1 hok
      rw [hp] at this
      cases this
  have hnr : ¬ (runFinal w exec sched).status t = .RUNNING := by
    intro hp
    cases hok : r.ok
    · rcases hsm.2 hok with h | h <;> rw [hp] at h <;> cases h
    · have := hsm.1 hok
      rw [hp] at this
      cases this
  exact ⟨r, hr, hsm.1, hsm.2, hnp, hnr, hinv.failedLaunched t,
    hinv.skippedNotLaunched t⟩

/-- Witness for C10 at the diamond workflow: B fails (FAILED, launched),
D is skipped (SKIPPED, never launched). -/
theorem run_status_result_coherence_witness :
    wDiamond.WF ∧ validRefs wDiamond ∧
    (∃ r, (runFinal wDiamond execDiamond schedNil).results "B" = some r ∧
      (r.ok = false → (runFinal wDiamond execDiamond schedNil).status "B" = .FAILED ∨
        (runFinal wDiamond execDiamond schedNil).status "B" = .SKIPPED) ∧
      ¬ (runFinal wDiamond execDiamond schedNil).status "B" = .PENDING) := by
  have hwf : wDiamond.WF := by
    unfold Workflow.WF
    decide
  have hv : validRefs wDiamond := by
    unfold validRefs
    decide
  have h := run_status_result_coherence wDiamond hwf hv execDiamond schedNil
  obtain ⟨r, hr, _, h2, h3, _⟩ := h.1 "B" (by decide)
  exact ⟨hwf, hv, r, hr, h2, h3⟩

/-- C2.  If X resolves with `ok = false` (failed or skipped) then every task
Y depending on X directly or transitively ends the run with an `ok = false`
entry in the result map, final status SKIPPED, and its body never invoked
(it is never handed to the execution engine: `launched` records every
`asyncio.create_task` call of the run). -/
theorem failure_cascades_to_descendants (w : Workflow) (hwf : w.WF)
    (hv : validRefs w) (exec : String → TaskResult) (sched : Nat → List String)
    (Y X : String) (hY : Y ∈ w.tasks) (hdep : DependsOn w Y X)
    (rx : TaskResult) (hx : (runFinal w exec sched).results X = some rx)
    (hnok : rx.ok = false) :
    ¬ Y ∈ (runFinal w exec sched).launched ∧
    ∃ ry, (runFinal w exec sched).results Y = some ry ∧ ry.ok = false ∧
      (runFinal w exec sched).status Y = .SKIPPED := by
  obtain ⟨hok, hinv, htotal, _, _⟩ := runFinal_spec w hwf hv exec sched
  have hstep : ∀ y q, y ∈ w.tasks → q ∈ w.deps y →
      (∃ rq, (runFinal w exec sched).results q = some rq ∧ rq.ok = false) →
      ¬ y ∈ (runFinal w exec sched).launched ∧
      ∃ ry, (runFinal w exec sched).results y = some ry ∧ ry.ok = false ∧
        (runFinal w exec sched).status y = .SKIPPED := by
    rintro y q hy hq ⟨rq, hrq, hnokq⟩
    have hnl : ¬ y ∈ (runFinal w exec sched).launched := by
      intro hl
      obtain ⟨r', hr', hok'⟩ := hinv.launchedDepsOk y hl q hq
      rw [hrq] at hr'
      have he : rq = r' := by injection hr'
      rw [← he, hnokq] at hok'
      cases hok'
    obtain ⟨ry, hry⟩ := Option.isSome_iff_exists.1 (htotal y hy)
    have hns := hinv.notLaunchedSkipped y hnl ry hry
    exact ⟨hnl, ry, hry, hns.1, hns.2⟩
  have hxe : ∃ r, (runFinal w exec sched).results X = some r ∧ r.ok = false :=
    ⟨rx, hx, hnok⟩
  clear hx hnok
  revert hY hxe
  induction hdep with
  | direct h =>
    intro hY hxe
    exact hstep _ _ hY h hxe
  | step h1 h2 ih =>
    intro hY hxe
    have hpT := validRefs_closed hv _ hY _ h1
    obtain ⟨_, rp, hrp, hnokp, _⟩ := ih hpT hxe
    exact hstep _ _ hY h1 ⟨rp, hrp, hnokp⟩

/-- Witness for C2 on the diamond: B fails, so D (a direct dependant) has an
`ok = false` SKIPPED entry and was never launched. -/
theorem failure_cascades_to_descendants_witness :
    wDiamond.WF ∧ validRefs wDiamond ∧ "D" ∈ wDiamond.tasks ∧
    DependsOn wDiamond "D" "B" ∧
    (runFinal wDiamond execDiamond schedNil).results "B" =
      some { ok := false, error := some "boom", retries := 3 } ∧
    ¬ "D" ∈ (runFinal wDiamond execDiamond schedNil).launched := by
  have hwf : wDiamond.WF := by
    unfold Workflow.WF
    decide
  have hv : validRefs wDiamond := by
    unfold validRefs
    decide
  have hdep : DependsOn wDiamond "D" "B" := DependsOn.direct (by decide)
  have hx : (runFinal wDiamond execDiamond schedNil).results "B" =
      some { ok := false, error := some "boom", retries := 3 } := by decide
  have h := failure_cascades_to_descendants wDiamond hwf hv execDiamond schedNil
    "D" "B" (by decide) hdep { ok := false, error := some "boom", retries := 3 } hx rfl
  exact ⟨hwf, hv, by decide, hdep, hx, h.1⟩

/-- C6.  At every point of the run (after any number `k` of scheduling-loop
iterations), every task whose execution engine has been started has a stored
result for each of its prerequisites — a task is never launched until all of
its prerequisites resolved; results are never deleted, so the property at
launch time persists to every later point.  Moreover the initial ready set
contains only tasks with no prerequisites, and a task is in `ready` only
when its remaining-dependency set has been emptied. -/
theorem launch_only_after_prereqs (w : Workflow) (hwf : w.WF)
    (exec : String → TaskResult) (sched : Nat → List String) (k : Nat) :
    (∀ t ∈ (runLoop w exec sched w.tasks.length k 0 (initState w)).launched,
      ∀ p ∈ w.deps t,
        ((runLoop w exec sched w.tasks.length k 0 (initState w)).results p).isSome) ∧
    (∀ t ∈ (initState w).ready, w.deps t = []) ∧
    (∀ t ∈ (runLoop w exec sched w.tasks.length k 0 (initState w)).ready,
      (runLoop w exec sched w.tasks.length k 0 (initState w)).remaining_deps t = []) := by
  obtain ⟨hi0, hf0⟩ := initState_inv w hwf
  obtain ⟨hik, _, _⟩ := runLoop_inv w hwf exec sched k 0 (initState w) hi0 hf0
  refine ⟨?_, ?_, hik.readyRemaining⟩
  · intro t ht p hp
    obtain ⟨r, hr, _⟩ := hik.launchedDepsOk t ht p hp
    rw [hr]
    rfl
  · intro t ht
    rw [initState] at ht
    have := (List.mem_filter.1 ht).2
    simpa using this

/-- Witness for C6 at the diamond workflow after three loop iterations. -/
theorem launch_only_after_prereqs_witness :
    wDiamond.WF ∧
    (∀ t ∈ (initState wDiamond).ready, wDiamond.deps t = []) := by
  have hwf : wDiamond.WF := by
    unfold Workflow.WF
    decide
  exact ⟨hwf, (launch_only_after_prereqs wDiamond hwf execDiamond schedNil 3).2.1⟩
